import Mathlib

/-!
Verification of the component updater of `meta-rdk-wan`
(`.github/scripts/update_component.py`).

Documents (BitBake recipe files) are modelled as lists of characters
(`Doc`).  Every text transformation performed by `update_bb_file` is
embedded as an executable Lean function; the remote GitHub API that the
resolver consults is modelled as an oracle structure (`GitApi`) whose
fields return what the corresponding HTTP request would return (`none` /
`false` standing for a request that raises or yields no data, exactly as
the `try/except` wrappers in the source turn failures into `None` /
`False`).
-/

namespace UpdComp

set_option maxRecDepth 40000

/-- Characters of a string literal, as a list. -/
def strL (s : String) : List Char := s.data

/-- A document is a list of characters. -/
abbrev Doc := List Char

/-- Python `s.split(sep)` for a one-character separator. -/
def splitCh (sep : Char) : List Char → List (List Char)
  | [] => [[]]
  | c :: rest =>
    if c = sep then [] :: splitCh sep rest
    else
      match splitCh sep rest with
      | [] => [c] :: []
      | l :: ls => (c :: l) :: ls

/-- Python `sep.join(parts)` for a one-character separator. -/
def joinCh (sep : Char) : List (List Char) → List Char
  | [] => []
  | [l] => l
  | l :: ls => l ++ sep :: joinCh sep ls

/-- The lines of a document, as produced by Python `content.split('\n')`. -/
def docLines (d : Doc) : List Doc := splitCh '\n' d

/-- Reassemble a document from its lines (`'\n'.join(lines)`). -/
def joinLines (ls : List Doc) : Doc := joinCh '\n' ls


/-!
### The remote API oracle

`ComponentUpdater` consults the GitHub REST API through `_api_request`.
Every consulting helper wraps its request in `try/except`, turning any
failure into `None` (or `False`).  The oracle below records, per input,
what the corresponding request chain yields:

* `tagSha t`      — the `object.sha` field for `git/refs/tags/{t}`
                    (`none`: request failed or field missing);
* `tagObjectSha s` — the `object.sha` field for `git/tags/{s}`
                    (`none`: request failed, i.e. a lightweight tag);
* `branches`       — names in the `/branches` listing, in listing order
                    (`none`: the request failed);
* `compareStatus b c` — the `status` field of `compare/{b}...{c}`
                    (`none`: the request failed);
* `branchExistsB b` — whether `branches/{b}` answers without error.
-/
structure GitApi where
  tagSha : Doc → Option Doc
  tagObjectSha : Doc → Option Doc
  branches : Option (List Doc)
  compareStatus : Doc → Doc → Option Doc
  branchExistsB : Doc → Bool

/-- `_get_commit_sha`: dereference an annotated tag, falling back to the
tag sha itself for lightweight tags or on failure. -/
def get_commit_sha (api : GitApi) (tagSha : Doc) : Doc :=
  (api.tagObjectSha tagSha).getD tagSha

/-- `_branch_contains_commit`: true exactly when the compare status is
`identical` or `behind`; a failed request counts as not containing. -/
def branch_contains_commit (api : GitApi) (branch commit : Doc) : Bool :=
  match api.compareStatus branch commit with
  | none => false
  | some st => decide (st = strL "identical") || decide (st = strL "behind")

/-- `_find_branch_containing_commit`: keep the branches whose name starts
with `releases/`, in listing order, and return the first one that
contains the commit. -/
def find_branch_containing_commit (api : GitApi) (commit : Doc) : Option Doc :=
  match api.branches with
  | none => none
  | some bs =>
    let release_branches := bs.filter (fun b => (strL "releases/").isPrefixOf b)
    release_branches.find? (fun b => branch_contains_commit api b commit)

/-- Python `tag.lstrip('v')`. -/
def lstripV (s : Doc) : Doc := s.dropWhile (fun c => c = 'v')

/-- `'.'.join(version.split('.')[:2])`. -/
def majorMinor (version : Doc) : Doc := joinCh '.' ((splitCh '.' version).take 2)

/-- `_find_branch_by_pattern`: probe the five naming patterns in order and
return the first existing one. -/
def find_branch_by_pattern (api : GitApi) (tag : Doc) : Option Doc :=
  let version := lstripV tag
  let mm := majorMinor version
  let patterns : List Doc :=
    [ strL "releases/" ++ mm ++ strL ".0-main"
    , strL "releases/" ++ version ++ strL "-main"
    , strL "releases/" ++ mm ++ strL "-main"
    , strL "release-" ++ mm
    , strL "release-" ++ version ]
  patterns.find? api.branchExistsB

/-- `find_tag_branch`: method 1 (tag object → commit → containing release
branch), then method 2 (pattern probing).  The `if tag_sha:` /
`if commit_sha:` truthiness tests of the source treat an empty string
like a missing one. -/
def find_tag_branch (api : GitApi) (tag : Doc) : Option Doc :=
  let m1 : Option Doc :=
    match api.tagSha tag with
    | none => none
    | some ts =>
      if ts = [] then none
      else
        let commit := get_commit_sha api ts
        if commit = [] then none else find_branch_containing_commit api commit
  match m1 with
  | some b => some b
  | none => find_branch_by_pattern api tag

/-- Indices at which `lit` occurs in `l` (all `i` with `lit` a prefix of
`l.drop i`). -/
def occIdx (lit l : Doc) : List Nat :=
  (List.range (l.length + 1)).filter (fun i => lit.isPrefixOf (l.drop i))

/-- The `([^;]+)` capture at index `i` of `l`: the maximal semicolon-free
run starting there. -/
def groupNonSemi (l : Doc) (i : Nat) : Doc :=
  (l.drop i).takeWhile (fun c => c ≠ ';')

/-- Lazy `.*?branch=([^;]+)`: the first `branch=` occurrence at index
`start` or later whose capture is nonempty. -/
def branchGroupAfter (l : Doc) (start : Nat) : Option Doc :=
  ((occIdx (strL "branch=") l).filter (fun i => start ≤ i)).findSome? (fun i =>
    let g := groupNonSemi l (i + 7)
    if g = [] then none else some g)

/-- One line of `get_current_branch_from_bb`: search
`^#SRC_URI.*github\.com/{org}/{repo}.*?branch=([^;]+)` in the line.  The
greedy `.*` makes the regex engine try the rightmost occurrence of the
`github.com/{org}/{repo}` literal first. -/
def search_commented_src_uri (org repo line : Doc) : Option Doc :=
  let lit := strL "github.com/" ++ org ++ strL "/" ++ repo
  if (strL "#SRC_URI").isPrefixOf line then
    (occIdx lit line).reverse.findSome? (fun i => branchGroupAfter line (i + lit.length))
  else none

/-- `get_current_branch_from_bb`: first line whose commented `SRC_URI`
records a branch. -/
def get_current_branch_from_bb (org repo content : Doc) : Option Doc :=
  (docLines content).findSome? (search_commented_src_uri org repo)

/-- Python `lit in l`: substring containment. -/
def containsLit (lit l : Doc) : Bool := !(occIdx lit l).isEmpty

/-- `re.match(r'^v\d+\.\d+\.\d+', s)` combined with `s.startswith('v')`:
a leading `v`, then three dot-separated digit runs, anything after. -/
def is_version_tag (s : Doc) : Bool :=
  match s with
  | 'v' :: r =>
    match r.dropWhile Char.isDigit, r.takeWhile Char.isDigit with
    | '.' :: r2, _ :: _ =>
      match r2.dropWhile Char.isDigit, r2.takeWhile Char.isDigit with
      | '.' :: r3, _ :: _ => !(r3.takeWhile Char.isDigit).isEmpty
      | _, _ => false
    | _, _ => false
  | _ => false

/-- `tag_or_branch.startswith('releases/') and tag_or_branch.endswith('-main')`. -/
def is_release_branch (s : Doc) : Bool :=
  (strL "releases/").isPrefixOf s && (strL "-main").isSuffixOf s

/-!
### Text substitutions

Patterns without `\n` (and without `re.MULTILINE` anchors) can only match
inside a single line, since `.` and the character classes used never match
a newline; those substitutions are embedded line by line
(`mapLines`).  The `SRC_URI` pattern contains `\s*` and `[^"]*`, which do
match newlines, so it is embedded directly on the character list
(`substAll`).
-/

/-- The suffix of `l` after its last double quote. -/
def afterLastQuote (l : Doc) : Doc := (l.reverse.takeWhile (fun c => c ≠ '"')).reverse

/-- Does `l` contain a double quote? -/
def hasQuote (l : Doc) : Bool := l.any (fun c => c = '"')

/-- First index of `l` where `lit` occurs with a further `"` after it —
the start of the leftmost match of the regex `lit.*"` inside one line. -/
def findLitQuote (lit : Doc) : Doc → Option Nat
  | [] => none
  | c :: cs =>
    if lit.isPrefixOf (c :: cs) && hasQuote ((c :: cs).drop lit.length) then some 0
    else
      match findLitQuote lit cs with
      | none => none
      | some i => some (i + 1)

/-- `re.sub(r'LIT.*"', repl, line)` for a literal `LIT` ending in `"`:
the greedy `.*` extends the single match to the last quote of the line. -/
def subGreedyQuoteLine (lit repl line : Doc) : Doc :=
  match findLitQuote lit line with
  | none => line
  | some i => line.take i ++ repl ++ afterLastQuote line

/-- Apply a line transformation to every line of the document. -/
def mapLines (f : Doc → Doc) (d : Doc) : Doc := joinLines ((docLines d).map f)

/-- `re.sub(r'GIT_TAG = ".*"', f'GIT_TAG = "{tag}"', content)`. -/
def sub_git_tag (tag : Doc) : Doc → Doc :=
  mapLines (subGreedyQuoteLine (strL "GIT_TAG = \"") (strL "GIT_TAG = \"" ++ tag ++ [ '"' ]))

/-- `re.sub(r'PV = ".*"', 'PV = "${GIT_TAG}+git${SRCPV}"', content)`. -/
def sub_pv : Doc → Doc :=
  mapLines (subGreedyQuoteLine (strL "PV = \"") (strL "PV = \"${GIT_TAG}+git${SRCPV}\""))

/-- `re.sub(r'^SRCREV = ', '#SRCREV = ', content, flags=re.MULTILINE)`. -/
def comment_srcrev : Doc → Doc :=
  mapLines (fun l => if (strL "SRCREV = ").isPrefixOf l then '#' :: l else l)

/-- `re.sub(r'^#SRCREV = ', 'SRCREV = ', content, flags=re.MULTILINE)`. -/
def uncomment_srcrev : Doc → Doc :=
  mapLines (fun l => if (strL "#SRCREV = ").isPrefixOf l then l.drop 1 else l)

/-- A line-start match of `^GIT_TAG = ".*"`: on success, the part of the
line after the last quote (what the match leaves of the line). -/
def gitTagLineMatch (l : Doc) : Option Doc :=
  if (strL "GIT_TAG = \"").isPrefixOf l && hasQuote (l.drop 11) then some (afterLastQuote l)
  else none

/-- `re.sub(r'^GIT_TAG = ".*"\n?', '', content, flags=re.MULTILINE)` on the
line list: a fully matched line is deleted together with its newline
(`\n?`); a match that leaves trailing text keeps the trailing text as the
line. -/
def removeGitTagLines : List Doc → List Doc
  | [] => []
  | l :: ls =>
    match gitTagLineMatch l with
    | none => l :: removeGitTagLines ls
    | some rest =>
      if rest = [] then
        match ls with
        | [] => [[]]
        | _ :: _ => removeGitTagLines ls
      else rest :: removeGitTagLines ls

def remove_git_tag (d : Doc) : Doc := joinLines (removeGitTagLines (docLines d))

/-- One step of left-to-right global substitution, with fuel.  The fuel
starts at the length of the document and never runs out, because every
match consumes at least one character. -/
def substAllGo (tm : Doc → Option Doc) (repl : Doc) : Nat → Doc → Doc
  | _, [] => []
  | 0, l => l
  | fuel + 1, c :: cs =>
    match tm (c :: cs) with
    | some rest => repl ++ substAllGo tm repl fuel rest
    | none => c :: substAllGo tm repl fuel cs

/-- `re.sub`/`str.replace`: replace every non-overlapping match of `tm`,
scanning left to right. -/
def substAll (tm : Doc → Option Doc) (repl : Doc) (l : Doc) : Doc :=
  substAllGo tm repl l.length l

/-- Python `\s` (ASCII part). -/
def isWs (c : Char) : Bool :=
  c = ' ' || c = '\t' || c = '\n' || c = '\r' || c = '\x0b' || c = '\x0c'

/-- Matcher for `SRC_URI\s*[:=]+\s*"git://github\.com/{org}/{repo}\.git[^"]*"`
anchored at the head of `s`; returns what follows the match.  The
character classes are pairwise disjoint from the characters that follow
them, so greedy matching is maximal-munch. -/
def srcUriTm (org repo : Doc) (s : Doc) : Option Doc :=
  if (strL "SRC_URI").isPrefixOf s then
    let s1 := (s.drop 7).dropWhile isWs
    let seps := s1.takeWhile (fun c => c = ':' || c = '=')
    if seps.isEmpty then none
    else
      let s2 := (s1.dropWhile (fun c => c = ':' || c = '=')).dropWhile isWs
      let lit := strL "\"git://github.com/" ++ org ++ strL "/" ++ repo ++ strL ".git"
      if lit.isPrefixOf s2 then
        match (s2.drop lit.length).dropWhile (fun c => c ≠ '"') with
        | '"' :: rest => some rest
        | _ => none
      else none
  else none

/-- Matcher for a fixed literal at the head of `s`. -/
def litTm (lit : Doc) (s : Doc) : Option Doc :=
  if lit.isPrefixOf s then some (s.drop lit.length) else none

/-- Python `content.replace(lit, repl)` for a nonempty literal. -/
def replaceAll (lit repl d : Doc) : Doc := substAll (litTm lit) repl d

def sub_src_uri (org repo new d : Doc) : Doc := substAll (srcUriTm org repo) new d

/-- The `SRC_URI` line written in tag mode. -/
def new_src_uri_tag (org repo branch comp : Doc) : Doc :=
  strL "SRC_URI := \"git://github.com/" ++ org ++ strL "/" ++ repo ++ strL ".git;branch=" ++
    branch ++ strL ";protocol=https;name=" ++ comp ++ strL ";tag=${GIT_TAG}\""

/-- The `SRC_URI` line written in branch mode. -/
def new_src_uri_branch (org repo branch comp : Doc) : Doc :=
  strL "SRC_URI = \"git://github.com/" ++ org ++ strL "/" ++ repo ++ strL ".git;branch=" ++
    branch ++ strL ";protocol=https;name=" ++ comp ++ strL ";\""

/-- The scan for the `GIT_TAG` insertion point: the line after the first
`LIC_FILES_CHKSUM` line (a `break`), otherwise the line after the first
`DEPENDS` line. -/
def findInsertIdxGo : Nat → Option Nat → List Doc → Option Nat
  | _, acc, [] => acc
  | i, acc, l :: ls =>
    if containsLit (strL "LIC_FILES_CHKSUM") l then some (i + 1)
    else if containsLit (strL "DEPENDS") l && acc.isNone then
      findInsertIdxGo (i + 1) (some (i + 1)) ls
    else findInsertIdxGo (i + 1) acc ls

/-- Insertion of the three `GIT_TAG` lines; when no insertion point is
found the document is left unchanged (only a warning is printed). -/
def insert_git_tag (tag d : Doc) : Doc :=
  let lines := docLines d
  match findInsertIdxGo 0 none lines with
  | none => d
  | some idx =>
    joinLines (lines.take idx ++
      ([] :: strL "# Please use below part only for official release and release candidates" ::
        [strL "GIT_TAG = \"" ++ tag ++ [ '"' ]]) ++ lines.drop idx)

/-- `re.sub(r'\n{3,}', '\n\n', ...)`: emit a pending run of newlines,
collapsing runs of three or more to two. -/
def emitNl (n : Nat) : Doc := if 3 ≤ n then ['\n', '\n'] else List.replicate n '\n'

def collapseGo : Nat → Doc → Doc
  | n, [] => emitNl n
  | n, c :: cs => if c = '\n' then collapseGo (n + 1) cs else emitNl n ++ c :: collapseGo 0 cs

/-- The final blank-line cleanup of `update_bb_file`. -/
def collapse (d : Doc) : Doc := collapseGo 0 d

/-- The three-tier branch resolution used in tag mode: `find_tag_branch`,
then the branch recorded in the recipe file, then the synthesized
`releases/{major}.{minor}.0-main`. -/
def resolve_branch (api : GitApi) (org repo tag content : Doc) : Doc :=
  match find_tag_branch api tag with
  | some b => b
  | none =>
    match get_current_branch_from_bb org repo content with
    | some b => b
    | none => strL "releases/" ++ majorMinor (lstripV tag) ++ strL ".0-main"

/-- The tag-mode body of `update_bb_file` (everything between the mode
dispatch and the blank-line cleanup). -/
def tag_mode_update (api : GitApi) (org repo comp tag content : Doc) : Doc :=
  let branch := resolve_branch api org repo tag content
  let c1 :=
    if containsLit (strL "GIT_TAG = ") content then sub_git_tag tag content
    else insert_git_tag tag content
  let new := new_src_uri_tag org repo branch comp
  let c2 := sub_src_uri org repo new c1
  let c3 :=
    if containsLit (strL "PV = ") c2 then sub_pv c2
    else replaceAll new (new ++ '\n' :: strL "PV = \"${GIT_TAG}+git${SRCPV}\"") c2
  comment_srcrev c3

/-- The branch-mode body of `update_bb_file`. -/
def branch_mode_update (org repo comp branch content : Doc) : Doc :=
  let c1 := remove_git_tag content
  let new := new_src_uri_branch org repo branch comp
  let c2 := sub_src_uri org repo new c1
  let c3 := replaceAll (strL "PV = \"${GIT_TAG}+git${SRCPV}\"") (strL "SRCREV = \"${AUTOREV}\"") c2
  let c4 := uncomment_srcrev c3
  if containsLit (strL "SRCREV = ") c4 then c4
  else replaceAll new (new ++ '\n' :: strL "SRCREV = \"${AUTOREV}\"") c4

/-- `update_bb_file`.  `file` is `none` when the recipe file does not
exist, `some content` otherwise.  The result is `none` when the function
returns `False` without writing, and `some d` when it writes `d` back and
returns `True`. -/
def update_bb_file (api : GitApi) (org tag_or_branch repo comp : Doc)
    (file : Option Doc) : Option Doc :=
  match file with
  | none => none
  | some content =>
    if !is_version_tag tag_or_branch && !is_release_branch tag_or_branch then none
    else if is_version_tag tag_or_branch then
      some (collapse (tag_mode_update api org repo comp tag_or_branch content))
    else
      some (collapse (branch_mode_update org repo comp tag_or_branch content))

/-!
### Observation predicates and concrete fixtures
-/

/-- `startHitAfterNl pat d`: some position of `d` directly after a `'\n'`
starts with `pat`. -/
def startHitAfterNl (pat : Doc) : Doc → Bool
  | [] => false
  | c :: r => (if c = '\n' then pat.isPrefixOf r else false) || startHitAfterNl pat r

/-- `lineStartHit pat d`: some line of `d` starts with `pat` (the
positions scanned are exactly those where `re.MULTILINE` anchors `^`). -/
def lineStartHit (pat : Doc) (d : Doc) : Bool :=
  pat.isPrefixOf d || startHitAfterNl pat d

/-- The tag-mode revision mechanism is active: some line is a `PV`
assignment referencing the `GIT_TAG` placeholder. -/
def activePVGitTag (d : Doc) : Bool :=
  (docLines d).any (fun l => (strL "PV = ").isPrefixOf l && containsLit (strL "${GIT_TAG}") l)

/-- The branch-mode revision mechanism is active: some line starts with
the uncommented `SRCREV = "${AUTOREV}"` assignment. -/
def activeAutorev (d : Doc) : Bool := lineStartHit (strL "SRCREV = \"${AUTOREV}\"") d

/-- An oracle on which every remote request fails. -/
def apiNone : GitApi :=
  { tagSha := fun _ => none
    tagObjectSha := fun _ => none
    branches := none
    compareStatus := fun _ _ => none
    branchExistsB := fun _ => false }

/-- A structured version tag `vX.Y.Z`; the third component may carry a
trailing suffix. -/
def vTag (x y z : Doc) : Doc := 'v' :: (x ++ '.' :: (y ++ '.' :: z))

/-- An oracle for which the tag lookup fails, the listed branches are
`main`, `releases/1.2.0-main`, `releases/9.9.9-main`, only the last one
compares as `behind` the commit, and only `releases/1.2-main` exists. -/
def apiW : GitApi :=
  { tagSha := fun _ => none
    tagObjectSha := fun _ => none
    branches := some [strL "main", strL "releases/1.2.0-main", strL "releases/9.9.9-main"]
    compareStatus := fun b _ =>
      if b = strL "releases/9.9.9-main" then some (strL "behind") else some (strL "ahead")
    branchExistsB := fun b => b = strL "releases/1.2-main" }

def orgD : Doc := strL "rdkcentral"

def repoD : Doc := strL "wan-manager"

def compD : Doc := strL "WanManager"

/-!
### Canonical recipe documents

`IsCanonTagDoc` captures a recipe file in canonical tag mode for the
parameters `(org, repo, branch, comp, tag)` — the form that a tag-mode
update itself writes: a `GIT_TAG` line, the tag-mode `SRC_URI` line, the
canonical `PV` line, and otherwise passive lines that none of the
substitutions of `update_bb_file` can touch.  The side conditions are
decidable so that concrete instances are checked by `decide`.
-/

/-- The canonical `GIT_TAG` assignment line. -/
def gitTagL (tag : Doc) : Doc := strL "GIT_TAG = \"" ++ tag ++ [ '"' ]

/-- The canonical tag-mode `PV` line. -/
def pvL : Doc := strL "PV = \"${GIT_TAG}+git${SRCPV}\""

/-- The branch-mode revision line. -/
def autorevL : Doc := strL "SRCREV = \"${AUTOREV}\""

/-- A line none of the updater's substitutions can touch: it holds no
`GIT_TAG`, no `SRC_URI`, no quoted `PV` assignment, does not start with
an (un)commented `SRCREV` assignment, and holds no newline. -/
def PassiveTag (l : Doc) : Prop :=
  containsLit (strL "GIT_TAG") l = false ∧
  containsLit (strL "SRC_URI") l = false ∧
  containsLit (strL "PV = \"") l = false ∧
  (strL "SRCREV = ").isPrefixOf l = false ∧
  '\n' ∉ l

instance (l : Doc) : Decidable (PassiveTag l) := by
  unfold PassiveTag
  infer_instance

/-- A recipe document (given by its line list) in canonical tag mode. -/
structure IsCanonTagDoc (org repo branch comp tag : Doc) (ls : List Doc) : Prop where
  mem_ok : ∀ l ∈ ls, l = gitTagL tag ∨ l = new_src_uri_tag org repo branch comp ∨
    l = pvL ∨ PassiveTag l
  nl_ok : ∀ l ∈ ls, '\n' ∉ l
  has_git : gitTagL tag ∈ ls
  has_pv : pvL ∈ ls
  git_no_src : containsLit (strL "SRC_URI") (gitTagL tag) = false
  git_no_pvq : containsLit (strL "PV = \"") (gitTagL tag) = false
  src_no_gitq : containsLit (strL "GIT_TAG = \"") (new_src_uri_tag org repo branch comp) = false
  src_no_pvq : containsLit (strL "PV = \"") (new_src_uri_tag org repo branch comp) = false
  branch_qf : '"' ∉ branch
  comp_qf : '"' ∉ comp

/-- A recipe on which the tag-mode update is visibly not idempotent: the
greedy `GIT_TAG = ".*"` insertion and the greedy `PV = ".*"` rewrite of the
second run eat the trailing quoted text that the first run left behind. -/
def docC2 : Doc :=
  strL "LIC_FILES_CHKSUM = \"file://x\"\nSRC_URI := \"git://github.com/rdkcentral/wan-manager.git;x\" \"q\""

/-- A concrete canonical tag-mode recipe for the fixed-point theorem. -/
def lsC2 : List Doc :=
  [strL "SUMMARY = \"wan\"",
   gitTagL (strL "v1.2.3"),
   new_src_uri_tag orgD repoD (strL "releases/1.2.0-main") compD,
   pvL,
   []]

/-- A concrete canonical tag-mode recipe fed to the branch-mode update,
with a disabled (commented-out) `SRCREV` field. -/
def lsC4 : List Doc :=
  [gitTagL (strL "v1.2.3"),
   new_src_uri_tag orgD repoD (strL "releases/1.2.0-main") compD,
   pvL,
   strL "#SRCREV = \"${AUTOREV}\"",
   strL "PN = \"wan\""]

/-- The line map performed by the branch-mode `SRC_URI` substitution on a
canonical document: the canonical tag-mode line is replaced whole. -/
def srcSwap (org repo branch comp bn : Doc) (l : Doc) : Doc :=
  if l = new_src_uri_tag org repo branch comp then new_src_uri_branch org repo bn comp else l

/-- The line map performed by the literal `PV`-to-`SRCREV` replacement on a
canonical document. -/
def pvSwap (l : Doc) : Doc := if l = pvL then autorevL else l

/-- The line map performed by the `^#SRCREV = ` uncommenting pass: a line
with a disabled `SRCREV` field loses its leading `#`. -/
def unSwap (l : Doc) : Doc :=
  if (strL "#SRCREV = ").isPrefixOf l then l.drop 1 else l

/-- Matches of `tm` always begin with the literal `lit`. -/
def TmStart (tm : Doc → Option Doc) (lit : Doc) : Prop :=
  ∀ s r, tm s = some r → lit.isPrefixOf s = true

/-- Matches of `tm` consume at least one character. -/
def TmShrink (tm : Doc → Option Doc) : Prop :=
  ∀ s r, tm s = some r → r.length < s.length

/-- No match of `tm` starts inside the line `l`, whatever document
follows it at the next line boundary (or the end of the document). -/
def InertFor (tm : Doc → Option Doc) (l : Doc) : Prop :=
  ∀ z : Doc, (z = [] ∨ ∃ w, z = '\n' :: w) → ∀ i, i < l.length → tm (l.drop i ++ z) = none

/-! ### Utility lemmas -/

/-- `splitCh` never returns an empty list of pieces. -/
theorem splitCh_ne_nil (sep : Char) (l : List Char) : splitCh sep l ≠ [] := by
  cases l with
  | nil => simp [splitCh]
  | cons c rest =>
    simp only [splitCh]
    split
    · simp
    · split <;> simp

theorem joinCh_cons_cons (sep : Char) (l m : List Char) (ms : List (List Char)) :
    joinCh sep (l :: m :: ms) = l ++ sep :: joinCh sep (m :: ms) := rfl

theorem joinCh_cons (sep : Char) (l : List Char) (ls : List (List Char)) (h : ls ≠ []) :
    joinCh sep (l :: ls) = l ++ sep :: joinCh sep ls := by
  cases ls with
  | nil => exact absurd rfl h
  | cons m ms => rfl

/-- Rebuilding the split pieces gives back the original list. -/
theorem joinCh_splitCh (sep : Char) (l : List Char) : joinCh sep (splitCh sep l) = l := by
  induction l with
  | nil => rfl
  | cons c rest ih =>
    simp only [splitCh]
    split
    · rename_i h
      rw [joinCh_cons sep [] _ (splitCh_ne_nil sep rest), ih, h]
      rfl
    · cases hs : splitCh sep rest with
      | nil => exact absurd hs (splitCh_ne_nil sep rest)
      | cons p ps =>
        rw [hs] at ih
        cases ps with
        | nil => simpa [joinCh] using ih
        | cons q qs =>
          rw [joinCh_cons_cons] at ih ⊢
          simpa using ih

/-- The separator does not occur inside any piece of a split. -/
theorem splitCh_pieces_no_sep (sep : Char) (l : List Char) :
    ∀ p ∈ splitCh sep l, sep ∉ p := by
  induction l with
  | nil => intro p hp; simp [splitCh] at hp; simp [hp]
  | cons c rest ih =>
    intro p hp
    simp only [splitCh] at hp
    split at hp
    · rcases List.mem_cons.1 hp with h | h
      · simp [h]
      · exact ih p h
    · rename_i hc
      cases hs : splitCh sep rest with
      | nil => exact absurd hs (splitCh_ne_nil sep rest)
      | cons q qs =>
        rw [hs] at hp
        rcases List.mem_cons.1 hp with h | h
        · subst h
          intro hmem
          rcases List.mem_cons.1 hmem with h' | h'
          · exact hc h'.symm
          · exact ih q (hs ▸ List.mem_cons_self q qs) h'
        · exact ih p (hs ▸ List.mem_cons_of_mem q h)

/-- Splitting a separator-free list yields a single piece. -/
theorem splitCh_no_sep (sep : Char) (l : List Char) (hl : sep ∉ l) :
    splitCh sep l = [l] := by
  induction l with
  | nil => rfl
  | cons c cs ihc =>
    have hc : c ≠ sep := fun hc => hl (hc ▸ List.mem_cons_self c cs)
    have hcs : sep ∉ cs := fun hm => hl (List.mem_cons_of_mem c hm)
    simp only [splitCh, if_neg hc, ihc hcs]

/-- Splitting distributes over a separator when the first chunk is
separator-free. -/
theorem splitCh_append_sep (sep : Char) (l z : List Char) (hl : sep ∉ l) :
    splitCh sep (l ++ sep :: z) = l :: splitCh sep z := by
  induction l with
  | nil =>
    simp [splitCh]
  | cons c cs ihc =>
    have hc : c ≠ sep := fun hc => hl (hc ▸ List.mem_cons_self c cs)
    have hcs : sep ∉ cs := fun hm => hl (List.mem_cons_of_mem c hm)
    simp only [List.cons_append, splitCh, if_neg hc, List.append_eq, ihc hcs]

/-- Splitting a rebuilt list recovers the pieces, when none contains the
separator. -/
theorem splitCh_joinCh (sep : Char) (ls : List (List Char)) (hne : ls ≠ [])
    (h : ∀ p ∈ ls, sep ∉ p) : splitCh sep (joinCh sep ls) = ls := by
  induction ls with
  | nil => exact absurd rfl hne
  | cons l ls ih =>
    cases ls with
    | nil => exact splitCh_no_sep sep l (h l (List.mem_cons_self l _))
    | cons m ms =>
      have hl : sep ∉ l := h l (List.mem_cons_self l _)
      have hrest : ∀ p ∈ m :: ms, sep ∉ p := fun p hp => h p (List.mem_cons_of_mem l hp)
      rw [joinCh_cons_cons, splitCh_append_sep sep l _ hl, ih (by simp) hrest]

/-- Pieces of `docLines` contain no newline. -/
theorem docLines_no_nl (d : Doc) : ∀ p ∈ docLines d, '\n' ∉ p :=
  splitCh_pieces_no_sep '\n' d

/-- `joinLines` undoes `docLines`. -/
theorem joinLines_docLines (d : Doc) : joinLines (docLines d) = d :=
  joinCh_splitCh '\n' d

/-- `docLines` undoes `joinLines` on newline-free nonempty line lists. -/
theorem docLines_joinLines (ls : List Doc) (hne : ls ≠ [])
    (h : ∀ p ∈ ls, '\n' ∉ p) : docLines (joinLines ls) = ls :=
  splitCh_joinCh '\n' ls hne h

theorem takeWhile_append_all (p : Char → Bool) (xs r : List Char)
    (hxs : ∀ c ∈ xs, p c = true) :
    (xs ++ r).takeWhile p = xs ++ r.takeWhile p := by
  induction xs with
  | nil => rfl
  | cons x t ih =>
    have hx : p x = true := hxs x (List.mem_cons_self x t)
    simp only [List.cons_append, List.takeWhile_cons, hx, if_true,
      ih (fun c hc => hxs c (List.mem_cons_of_mem x hc))]

theorem dropWhile_append_all (p : Char → Bool) (xs r : List Char)
    (hxs : ∀ c ∈ xs, p c = true) :
    (xs ++ r).dropWhile p = r.dropWhile p := by
  induction xs with
  | nil => rfl
  | cons x t ih =>
    have hx : p x = true := hxs x (List.mem_cons_self x t)
    simp only [List.cons_append, List.dropWhile_cons, hx, if_true,
      ih (fun c hc => hxs c (List.mem_cons_of_mem x hc))]

theorem takeWhile_all_stop (p : Char → Bool) (xs : List Char) (y : Char) (r : List Char)
    (hxs : ∀ c ∈ xs, p c = true) (hy : p y = false) :
    (xs ++ y :: r).takeWhile p = xs := by
  rw [takeWhile_append_all p xs _ hxs, List.takeWhile_cons, hy]
  simp

theorem dropWhile_all_stop (p : Char → Bool) (xs : List Char) (y : Char) (r : List Char)
    (hxs : ∀ c ∈ xs, p c = true) (hy : p y = false) :
    (xs ++ y :: r).dropWhile p = y :: r := by
  rw [dropWhile_append_all p xs _ hxs, List.dropWhile_cons, hy]
  simp

/-! ### Claim C9: rejection paths -/

/-- C9: for every input, `update_bb_file` returns failure and performs no
write when the recipe file does not exist or when the specifier matches
neither the tag pattern nor the branch pattern. -/
theorem c9_invalid_input_rejected (api : GitApi) (org spec repo comp : Doc)
    (file : Option Doc)
    (h : file = none ∨ (is_version_tag spec = false ∧ is_release_branch spec = false)) :
    update_bb_file api org spec repo comp file = none := by
  rcases h with h | ⟨h1, h2⟩
  · rw [h]; rfl
  · cases file with
    | none => rfl
    | some c => simp [update_bb_file, h1, h2]

/-- C9 witness: the malformed specifier `1.3.0` is rejected with the file
untouched. -/
theorem c9_invalid_input_rejected_witness :
    update_bb_file apiNone orgD (strL "1.3.0") repoD compD (some (strL "PN = \"x\"")) = none :=
  c9_invalid_input_rejected apiNone orgD (strL "1.3.0") repoD compD
    (some (strL "PN = \"x\"")) (Or.inr ⟨by decide, by decide⟩)

/-! ### Claim C6: no-partial-success -/

/-- C6 counterexample: on a document containing none of the recognized
fields, a tag-mode run reports success (writes and returns `True`)
although not a single field rewrite was performed — the output does not
even contain `GIT_TAG`. -/
theorem c6_counterexample :
    update_bb_file apiNone orgD (strL "v1.2.3") repoD compD (some (strL "hello world"))
        = some (strL "hello world") ∧
      containsLit (strL "GIT_TAG") (strL "hello world") = false := by
  constructor
  · rfl
  · decide

/-- C6 amended: a run fails (returning `False` and writing nothing) exactly
when the file is missing or the specifier is malformed; any other run
writes and reports success, whether or not the individual field rewrites
found anything to rewrite. -/
theorem c6_amended_success_iff_valid (api : GitApi) (org spec repo comp : Doc)
    (file : Option Doc) :
    update_bb_file api org spec repo comp file = none ↔
      (file = none ∨ (is_version_tag spec = false ∧ is_release_branch spec = false)) := by
  cases file with
  | none => simp [update_bb_file]
  | some c =>
    by_cases h1 : is_version_tag spec <;> by_cases h2 : is_release_branch spec <;>
      simp [update_bb_file, h1, h2]

/-! ### Collapse lemmas -/

theorem emitNl_eq (n : Nat) : emitNl n = List.replicate (min n 2) '\n' := by
  unfold emitNl
  split
  · rename_i h
    have : min n 2 = 2 := Nat.min_eq_right (by omega)
    rw [this]
    rfl
  · rename_i h
    have : min n 2 = n := Nat.min_eq_left (by omega)
    rw [this]

theorem collapseGo_nlFree (b : Doc) (h : '\n' ∉ b) : collapseGo 0 b = b := by
  induction b with
  | nil => rfl
  | cons c cs ih =>
    have hc : c ≠ '\n' := fun hc => h (hc ▸ List.mem_cons_self c cs)
    have hcs : '\n' ∉ cs := fun hm => h (List.mem_cons_of_mem c hm)
    simp only [collapseGo, if_neg hc, ih hcs]
    rfl

theorem collapseGo_cons_nl (k : Nat) (cs : Doc) :
    collapseGo k ('\n' :: cs) = collapseGo (k + 1) cs := by
  simp [collapseGo]

theorem collapseGo_cons_other (k : Nat) (c : Char) (cs : Doc) (hc : c ≠ '\n') :
    collapseGo k (c :: cs) = emitNl k ++ c :: collapseGo 0 cs := by
  simp [collapseGo, hc]

theorem collapseGo_rep_nil (k n : Nat) :
    collapseGo k (List.replicate n '\n') = emitNl (k + n) := by
  induction n generalizing k with
  | zero => rfl
  | succ m ih =>
    rw [List.replicate_succ, collapseGo_cons_nl, ih (k + 1)]
    have h : k + 1 + m = k + (m + 1) := by omega
    rw [h]

theorem collapseGo_rep_cons (k n : Nat) (c : Char) (cs : Doc) (hc : c ≠ '\n') :
    collapseGo k (List.replicate n '\n' ++ c :: cs)
      = emitNl (k + n) ++ c :: collapseGo 0 cs := by
  induction n generalizing k with
  | zero =>
    rw [List.replicate, List.nil_append, collapseGo_cons_other k c cs hc, Nat.add_zero]
  | succ m ih =>
    rw [List.replicate_succ, List.cons_append, collapseGo_cons_nl, ih (k + 1)]
    have h : k + 1 + m = k + (m + 1) := by omega
    rw [h]

/-! ### Claim C5: blank-line cleanup -/

/-- C5 counterexample: the cleanup is `re.sub(r'\n{3,}', '\n\n', ...)`,
which already rewrites a run of two consecutive blank lines (three
newlines) into a single blank line, so a run of fewer than three blank
lines is not left unchanged. -/
theorem c5_counterexample :
    update_bb_file apiNone orgD (strL "releases/1.4.0-main") repoD compD
        (some (strL "SRCREV = \"abc\"\n\n\nend")) = some (strL "SRCREV = \"abc\"\n\nend") ∧
      docLines (strL "SRCREV = \"abc\"\n\n\nend")
        = [strL "SRCREV = \"abc\"", [], [], strL "end"] := by
  constructor
  · rfl
  · decide

/-- C5 amended: the final cleanup collapses exactly the runs of three or
more consecutive newline characters — i.e. two or more consecutive blank
lines — down to a single blank line, leaves shorter newline runs
unchanged, and the updater writes the entire collapsed document back
(`some` of the collapsed text, for both modes). -/
theorem c5_amended_cleanup (a b : Doc) (n : Nat) (ha : '\n' ∉ a) (hb : '\n' ∉ b) :
    (collapse (a ++ List.replicate n '\n' ++ b)
        = a ++ List.replicate (min n 2) '\n' ++ b) ∧
      (∀ api org spec repo comp content, is_version_tag spec = true →
        update_bb_file api org spec repo comp (some content)
          = some (collapse (tag_mode_update api org repo comp spec content))) ∧
      (∀ api org spec repo comp content,
        is_version_tag spec = false → is_release_branch spec = true →
        update_bb_file api org spec repo comp (some content)
          = some (collapse (branch_mode_update org repo comp spec content))) := by
  refine ⟨?_, ?_, ?_⟩
  · induction a with
    | nil =>
      simp only [List.nil_append]
      cases b with
      | nil =>
        simp only [List.append_nil, collapse, collapseGo_rep_nil]
        rw [emitNl_eq]
        simp
      | cons c cs =>
        have hc : c ≠ '\n' := fun hc => hb (hc ▸ List.mem_cons_self c cs)
        have hcs : '\n' ∉ cs := fun hm => hb (List.mem_cons_of_mem c hm)
        rw [collapse, collapseGo_rep_cons 0 n c cs hc, collapseGo_nlFree cs hcs, emitNl_eq]
        simp
    | cons x xs ih =>
      have hx : x ≠ '\n' := fun hx => ha (hx ▸ List.mem_cons_self x xs)
      have hxs : '\n' ∉ xs := fun hm => ha (List.mem_cons_of_mem x hm)
      have hrec := ih hxs
      rw [collapse] at hrec ⊢
      rw [List.cons_append, List.cons_append, collapseGo_cons_other 0 x _ hx, hrec]
      rfl
  · intro api org spec repo comp content h
    simp [update_bb_file, h]
  · intro api org spec repo comp content h1 h2
    simp [update_bb_file, h1, h2]

/-- C5 amended witness: a run of four newlines between `a` and `b` is
collapsed to a blank line, and a tag-mode run writes the collapsed
document. -/
theorem c5_amended_cleanup_witness :
    collapse (strL "a" ++ List.replicate 4 '\n' ++ strL "b")
        = strL "a" ++ List.replicate (min 4 2) '\n' ++ strL "b" ∧
      update_bb_file apiNone orgD (strL "v9.9.9") repoD compD (some (strL "z"))
        = some (collapse (tag_mode_update apiNone orgD repoD compD (strL "v9.9.9") (strL "z"))) :=
  ⟨(c5_amended_cleanup (strL "a") (strL "b") 4 (by decide) (by decide)).1,
    (c5_amended_cleanup [] [] 0 (by decide) (by decide)).2.1 apiNone orgD (strL "v9.9.9")
      repoD compD (strL "z") (by decide)⟩

/-! ### Structured tags: parsing and resolution lemmas -/

theorem digit_ne_dot {c : Char} (h : c.isDigit = true) : c ≠ '.' := by
  intro hc
  rw [hc] at h
  exact absurd h (by decide)

theorem digit_ne_v {c : Char} (h : c.isDigit = true) : c ≠ 'v' := by
  intro hc
  rw [hc] at h
  exact absurd h (by decide)

theorem no_dot_of_digits (X : Doc) (hXd : ∀ c ∈ X, c.isDigit = true) : '.' ∉ X := by
  intro hm
  exact absurd rfl (digit_ne_dot (hXd '.' hm)).symm

theorem lstripV_vTag (X Y Z : Doc) (hX : X ≠ []) (hXd : ∀ c ∈ X, c.isDigit = true) :
    lstripV (vTag X Y Z) = X ++ '.' :: (Y ++ '.' :: Z) := by
  cases X with
  | nil => exact absurd rfl hX
  | cons x xs =>
    have hxv : x ≠ 'v' := digit_ne_v (hXd x (List.mem_cons_self x xs))
    simp [lstripV, vTag, List.dropWhile_cons, hxv]

theorem majorMinor_structured (X Y Z : Doc) (hXd : ∀ c ∈ X, c.isDigit = true)
    (hYd : ∀ c ∈ Y, c.isDigit = true) :
    majorMinor (X ++ '.' :: (Y ++ '.' :: Z)) = X ++ '.' :: Y := by
  unfold majorMinor
  rw [splitCh_append_sep '.' X _ (no_dot_of_digits X hXd),
    splitCh_append_sep '.' Y _ (no_dot_of_digits Y hYd)]
  rw [List.take_cons, List.take_cons] <;> try omega
  · rw [show (2 : Nat) - 1 - 1 = 0 from rfl, List.take_zero]
    rw [joinCh_cons_cons]
    rfl

/-- Parsing of `re.match(r'^v\d+\.\d+\.\d+', ...)` on a structured tag. -/
theorem isVersionTag_structured (X Y Z r : Doc) (hX : X ≠ []) (hY : Y ≠ []) (hZ : Z ≠ [])
    (hXd : ∀ c ∈ X, c.isDigit = true) (hYd : ∀ c ∈ Y, c.isDigit = true)
    (hZd : ∀ c ∈ Z, c.isDigit = true) :
    is_version_tag (vTag X Y (Z ++ r)) = true := by
  cases X with
  | nil => exact absurd rfl hX
  | cons x xs =>
  cases Y with
  | nil => exact absurd rfl hY
  | cons y ys =>
  cases Z with
  | nil => exact absurd rfl hZ
  | cons z zs =>
    have hdot : Char.isDigit '.' = false := by decide
    have e1 := dropWhile_all_stop Char.isDigit (x :: xs) '.'
      ((y :: ys) ++ '.' :: ((z :: zs) ++ r)) hXd hdot
    have e2 := takeWhile_all_stop Char.isDigit (x :: xs) '.'
      ((y :: ys) ++ '.' :: ((z :: zs) ++ r)) hXd hdot
    have e3 := dropWhile_all_stop Char.isDigit (y :: ys) '.' ((z :: zs) ++ r) hYd hdot
    have e4 := takeWhile_all_stop Char.isDigit (y :: ys) '.' ((z :: zs) ++ r) hYd hdot
    have e5 := takeWhile_append_all Char.isDigit (z :: zs) r hZd
    simp only [vTag, is_version_tag, e1, e2, e3, e4, e5]
    simp

/-! ### Claim C10: prefix-only tag classification -/

/-- C10: the tag test accepts every string starting with `v` plus three
dot-separated digit runs, whatever follows; such specifiers are processed
in tag mode. -/
theorem c10_tag_classification_prefix_only (X Y Z r : Doc)
    (hX : X ≠ []) (hY : Y ≠ []) (hZ : Z ≠ [])
    (hXd : ∀ c ∈ X, c.isDigit = true) (hYd : ∀ c ∈ Y, c.isDigit = true)
    (hZd : ∀ c ∈ Z, c.isDigit = true) :
    is_version_tag (vTag X Y (Z ++ r)) = true ∧
      ∀ api org repo comp content,
        update_bb_file api org (vTag X Y (Z ++ r)) repo comp (some content)
          = some (collapse (tag_mode_update api org repo comp (vTag X Y (Z ++ r)) content)) := by
  have h := isVersionTag_structured X Y Z r hX hY hZ hXd hYd hZd
  refine ⟨h, fun api org repo comp content => ?_⟩
  simp [update_bb_file, h]

/-- C10 witness: `v1.2.3-rc1` and `v1.2.3.4` are classified as version
tags and dispatched to tag mode. -/
theorem c10_tag_classification_prefix_only_witness :
    is_version_tag (vTag (strL "1") (strL "2") (strL "3" ++ strL "-rc1")) = true ∧
      is_version_tag (vTag (strL "1") (strL "2") (strL "3" ++ strL ".4")) = true ∧
      update_bb_file apiNone orgD (vTag (strL "1") (strL "2") (strL "3" ++ strL "-rc1"))
          repoD compD (some (strL "x"))
        = some (collapse (tag_mode_update apiNone orgD repoD compD
            (vTag (strL "1") (strL "2") (strL "3" ++ strL "-rc1")) (strL "x"))) :=
  ⟨(c10_tag_classification_prefix_only (strL "1") (strL "2") (strL "3") (strL "-rc1")
      (by decide) (by decide) (by decide) (by decide) (by decide) (by decide)).1,
   (c10_tag_classification_prefix_only (strL "1") (strL "2") (strL "3") (strL ".4")
      (by decide) (by decide) (by decide) (by decide) (by decide) (by decide)).1,
   (c10_tag_classification_prefix_only (strL "1") (strL "2") (strL "3") (strL "-rc1")
      (by decide) (by decide) (by decide) (by decide) (by decide) (by decide)).2
     apiNone orgD repoD compD (strL "x")⟩

/-! ### Claim C3: the unconditional final fallback -/

/-- C3: when both remote tiers fail (`find_tag_branch` returns nothing)
and the recipe file records no previous branch, tag-mode resolution
still yields a branch: the synthesized `releases/{major}.{minor}.0-main`.
Resolution is a total function, so it never errors out. -/
theorem c3_final_fallback (api : GitApi) (org repo content X Y Z : Doc)
    (hX : X ≠ []) (hXd : ∀ c ∈ X, c.isDigit = true) (hYd : ∀ c ∈ Y, c.isDigit = true)
    (h1 : find_tag_branch api (vTag X Y Z) = none)
    (h2 : get_current_branch_from_bb org repo content = none) :
    resolve_branch api org repo (vTag X Y Z) content
      = strL "releases/" ++ (X ++ '.' :: Y) ++ strL ".0-main" := by
  unfold resolve_branch
  rw [h1, h2, lstripV_vTag X Y Z hX hXd, majorMinor_structured X Y Z hXd hYd]

/-- C3 witness: `v2.11.0` with every lookup failing and an empty recipe
resolves to `releases/2.11.0-main`. -/
theorem c3_final_fallback_witness :
    resolve_branch apiNone orgD repoD (vTag (strL "2") (strL "11") (strL "0")) []
        = strL "releases/" ++ (strL "2" ++ '.' :: strL "11") ++ strL ".0-main" ∧
      strL "releases/" ++ (strL "2" ++ '.' :: strL "11") ++ strL ".0-main"
        = strL "releases/2.11.0-main" :=
  ⟨c3_final_fallback apiNone orgD repoD [] (strL "2") (strL "11") (strL "0")
      (by decide) (by decide) (by decide) (by decide) (by decide),
    by decide⟩

/-! ### Claim C7: pattern-probe order -/

/-- C7: when the tag lookup fails, the fallback probes exactly the five
name patterns in order and returns the first existing one (`find?`),
absent when none exists. -/
theorem c7_pattern_probe_order (api : GitApi) (X Y Z : Doc)
    (hX : X ≠ []) (hXd : ∀ c ∈ X, c.isDigit = true) (hYd : ∀ c ∈ Y, c.isDigit = true)
    (hfail : api.tagSha (vTag X Y Z) = none) :
    find_tag_branch api (vTag X Y Z)
        = [ strL "releases/" ++ (X ++ '.' :: Y) ++ strL ".0-main"
          , strL "releases/" ++ (X ++ '.' :: (Y ++ '.' :: Z)) ++ strL "-main"
          , strL "releases/" ++ (X ++ '.' :: Y) ++ strL "-main"
          , strL "release-" ++ (X ++ '.' :: Y)
          , strL "release-" ++ (X ++ '.' :: (Y ++ '.' :: Z)) ].find? api.branchExistsB ∧
      find_branch_by_pattern api (vTag X Y Z)
        = [ strL "releases/" ++ (X ++ '.' :: Y) ++ strL ".0-main"
          , strL "releases/" ++ (X ++ '.' :: (Y ++ '.' :: Z)) ++ strL "-main"
          , strL "releases/" ++ (X ++ '.' :: Y) ++ strL "-main"
          , strL "release-" ++ (X ++ '.' :: Y)
          , strL "release-" ++ (X ++ '.' :: (Y ++ '.' :: Z)) ].find? api.branchExistsB := by
  have hp : find_branch_by_pattern api (vTag X Y Z)
      = [ strL "releases/" ++ (X ++ '.' :: Y) ++ strL ".0-main"
        , strL "releases/" ++ (X ++ '.' :: (Y ++ '.' :: Z)) ++ strL "-main"
        , strL "releases/" ++ (X ++ '.' :: Y) ++ strL "-main"
        , strL "release-" ++ (X ++ '.' :: Y)
        , strL "release-" ++ (X ++ '.' :: (Y ++ '.' :: Z)) ].find? api.branchExistsB := by
    simp only [find_branch_by_pattern, lstripV_vTag X Y Z hX hXd,
      majorMinor_structured X Y Z hXd hYd]
  refine ⟨?_, hp⟩
  unfold find_tag_branch
  rw [hfail]
  exact hp

/-- C7 witness: for `v1.2.3`, with only `releases/1.2-main` existing, the
probe skips the first two patterns and returns the third. -/
theorem c7_pattern_probe_order_witness :
    find_branch_by_pattern apiW (vTag (strL "1") (strL "2") (strL "3"))
      = some (strL "releases/1.2-main") := by
  have h := (c7_pattern_probe_order apiW (strL "1") (strL "2") (strL "3")
    (by decide) (by decide) (by decide) rfl).2
  rw [h]
  decide

/-! ### Claim C8: the primary resolution tier -/

theorem find?_filter_comm {α : Type} (p q : α → Bool) (l : List α) :
    (l.filter p).find? q = l.find? (fun a => p a && q a) := by
  induction l with
  | nil => rfl
  | cons a t ih =>
    by_cases hp : p a = true
    · rw [List.filter_cons_of_pos hp]
      by_cases hq : q a = true
      · rw [List.find?_cons_of_pos _ hq, List.find?_cons_of_pos _ (by simp [hp, hq])]
      · rw [List.find?_cons_of_neg _ (by simpa using hq),
          List.find?_cons_of_neg _ (by simp [hp, hq]), ih]
    · rw [List.filter_cons_of_neg (by simpa using hp),
        List.find?_cons_of_neg _ (by simp [hp]), ih]

/-- C8: with the branch listing available, the primary tier returns the
first listed branch that both starts with `releases/` and contains the
commit, where containment holds exactly when the remote compare status is
`identical` or `behind`. -/
theorem c8_primary_tier_first_release_branch (api : GitApi) (commit : Doc) (bs : List Doc)
    (hb : api.branches = some bs) :
    find_branch_containing_commit api commit
        = bs.find? (fun b =>
            (strL "releases/").isPrefixOf b && branch_contains_commit api b commit) ∧
      ∀ b, branch_contains_commit api b commit = true ↔
        (api.compareStatus b commit = some (strL "identical") ∨
          api.compareStatus b commit = some (strL "behind")) := by
  constructor
  · unfold find_branch_containing_commit
    rw [hb]
    exact find?_filter_comm _ _ bs
  · intro b
    unfold branch_contains_commit
    cases h : api.compareStatus b commit with
    | none => simp
    | some st => simp

/-- C8 witness: in the listing `[main, releases/1.2.0-main,
releases/9.9.9-main]` where only the last compares as `behind`, the
primary tier returns `releases/9.9.9-main`. -/
theorem c8_primary_tier_first_release_branch_witness :
    find_branch_containing_commit apiW (strL "c")
        = some (strL "releases/9.9.9-main") ∧
      branch_contains_commit apiW (strL "releases/1.2.0-main") (strL "c") = false := by
  have h := (c8_primary_tier_first_release_branch apiW (strL "c")
    [strL "main", strL "releases/1.2.0-main", strL "releases/9.9.9-main"] rfl).1
  constructor
  · rw [h]
    decide
  · decide

/-! ### Line-start scanning lemmas -/

theorem isPrefixOf_nil_right (c : Char) (cs : Doc) :
    (c :: cs : Doc).isPrefixOf [] = false := rfl

theorem nil_isPrefixOf (l : Doc) : ([] : Doc).isPrefixOf l = true := by
  cases l <;> rfl

theorem isPrefixOf_cons_cons (a b : Char) (as bs : Doc) :
    (a :: as : Doc).isPrefixOf (b :: bs) = ((a == b) && as.isPrefixOf bs) := rfl

/-- A newline-free pattern is a prefix of `d` exactly when it is a prefix
of the first line of `d`. -/
theorem isPrefixOf_takeWhile_ne_nl (pat d : Doc) (hp : '\n' ∉ pat) :
    pat.isPrefixOf d = pat.isPrefixOf (d.takeWhile (fun c => c ≠ '\n')) := by
  induction pat generalizing d with
  | nil => rw [nil_isPrefixOf, nil_isPrefixOf]
  | cons p pt ih =>
    have hpnl : p ≠ '\n' := fun h => hp (h ▸ List.mem_cons_self p pt)
    have hpt : '\n' ∉ pt := fun h => hp (List.mem_cons_of_mem p h)
    cases d with
    | nil => rfl
    | cons c cs =>
      by_cases hc : c = '\n'
      · subst hc
        have h1 : List.takeWhile (fun c => decide (c ≠ '\n')) ('\n' :: cs) = [] := by simp
        rw [h1, isPrefixOf_cons_cons, isPrefixOf_nil_right]
        simp [hpnl]
      · rw [List.takeWhile_cons, if_pos (by simp [hc])]
        rw [isPrefixOf_cons_cons, isPrefixOf_cons_cons, ih cs hpt]

theorem isPrefixOf_append_sep (pat l z : Doc) (hp : '\n' ∉ pat) (hl : '\n' ∉ l) :
    pat.isPrefixOf (l ++ '\n' :: z) = pat.isPrefixOf l := by
  rw [isPrefixOf_takeWhile_ne_nl pat _ hp,
    takeWhile_all_stop _ l '\n' z (by intro c hc; simp [ne_eq]; intro h; exact hl (h ▸ hc)) (by simp)]

theorem startHitAfterNl_cons_other (pat : Doc) (c : Char) (r : Doc) (hc : c ≠ '\n') :
    startHitAfterNl pat (c :: r) = startHitAfterNl pat r := by
  simp [startHitAfterNl, hc]

theorem startHitAfterNl_cons_nl (pat : Doc) (r : Doc) :
    startHitAfterNl pat ('\n' :: r) = (pat.isPrefixOf r || startHitAfterNl pat r) := by
  simp [startHitAfterNl]

theorem startHitAfterNl_nlFree (pat l : Doc) (hl : '\n' ∉ l) :
    startHitAfterNl pat l = false := by
  induction l with
  | nil => rfl
  | cons c cs ih =>
    have hc : c ≠ '\n' := fun h => hl (h ▸ List.mem_cons_self c cs)
    rw [startHitAfterNl_cons_other pat c cs hc]
    exact ih (fun h => hl (List.mem_cons_of_mem c h))

theorem lineStartHit_cons_nl (pat : Doc) (p0 : Char) (pt r : Doc)
    (hpat : pat = p0 :: pt) (hp0 : p0 ≠ '\n') :
    lineStartHit pat ('\n' :: r) = lineStartHit pat r := by
  subst hpat
  rw [lineStartHit, lineStartHit, isPrefixOf_cons_cons, startHitAfterNl_cons_nl]
  have : (p0 == '\n') = false := by simp [hp0]
  simp [this]

theorem lineStartHit_append_sep (pat l z : Doc) (hp : '\n' ∉ pat) (hl : '\n' ∉ l) :
    lineStartHit pat (l ++ '\n' :: z) = (pat.isPrefixOf l || lineStartHit pat z) := by
  rw [lineStartHit, isPrefixOf_append_sep pat l z hp hl]
  congr 1
  induction l with
  | nil => rw [List.nil_append, startHitAfterNl_cons_nl]; rfl
  | cons c cs ih =>
    have hc : c ≠ '\n' := fun h => hl (h ▸ List.mem_cons_self c cs)
    rw [List.cons_append, startHitAfterNl_cons_other pat c _ hc]
    exact ih (fun h => hl (List.mem_cons_of_mem c h))

theorem lineStartHit_nlFree (pat l : Doc) (hl : '\n' ∉ l) :
    lineStartHit pat l = pat.isPrefixOf l := by
  rw [lineStartHit, startHitAfterNl_nlFree pat l hl]
  simp

/-- `lineStartHit` over a reassembled line list is a search among the
lines. -/
theorem lineStartHit_joinLines (pat : Doc) (hp : '\n' ∉ pat) (ls : List Doc)
    (hne : ls ≠ []) (hls : ∀ l ∈ ls, '\n' ∉ l) :
    lineStartHit pat (joinLines ls) = ls.any (fun l => pat.isPrefixOf l) := by
  induction ls with
  | nil => exact absurd rfl hne
  | cons l ls ih =>
    cases ls with
    | nil =>
      rw [show joinLines [l] = l from rfl,
        lineStartHit_nlFree pat l (hls l (List.mem_cons_self l _))]
      simp
    | cons m ms =>
      rw [show joinLines (l :: m :: ms) = l ++ '\n' :: joinLines (m :: ms) from rfl,
        lineStartHit_append_sep pat l _ hp (hls l (List.mem_cons_self l _)),
        ih (by simp) (fun x hx => hls x (List.mem_cons_of_mem l hx))]
      simp

/-- Prefix monotonicity of `lineStartHit`. -/
theorem lineStartHit_mono (pat1 pat2 d : Doc) (h12 : pat1.isPrefixOf pat2 = true)
    (h : lineStartHit pat2 d = true) : lineStartHit pat1 d = true := by
  have trans : ∀ x : Doc, pat2.isPrefixOf x = true → pat1.isPrefixOf x = true := by
    intro x hx
    have t1 : pat1 <+: pat2 := by rwa [← List.isPrefixOf_iff_prefix]
    have t2 : pat2 <+: x := by rwa [← List.isPrefixOf_iff_prefix]
    rw [List.isPrefixOf_iff_prefix]
    exact t1.trans t2
  rw [lineStartHit] at h ⊢
  rcases Bool.or_eq_true_iff.1 h with h' | h'
  · rw [trans d h']
    simp
  · have : startHitAfterNl pat1 d = true := by
      clear h
      induction d with
      | nil => simpa [startHitAfterNl] using h'
      | cons c cs ih =>
        rw [startHitAfterNl] at h' ⊢
        rcases Bool.or_eq_true_iff.1 h' with h2 | h2
        · split at h2
          · rw [if_pos (by assumption), trans cs h2]
            simp
          · exact absurd h2 (by simp)
        · rw [ih h2]
          simp
    rw [this]
    simp

/-! ### Collapse preserves absent line-start hits -/

theorem emitNl_succ_head (k : Nat) : ∃ u, emitNl (k + 1) = '\n' :: u := by
  unfold emitNl
  split
  · exact ⟨['\n'], rfl⟩
  · exact ⟨List.replicate k '\n', by rw [List.replicate_succ]⟩

theorem collapseGo_succ_head (r : Doc) : ∀ k, ∃ t, collapseGo (k + 1) r = '\n' :: t := by
  induction r with
  | nil =>
    intro k
    obtain ⟨u, hu⟩ := emitNl_succ_head k
    exact ⟨u, by rw [show collapseGo (k + 1) [] = emitNl (k + 1) from rfl, hu]⟩
  | cons c cs ih =>
    intro k
    by_cases hc : c = '\n'
    · subst hc
      rw [collapseGo_cons_nl]
      exact ih (k + 1)
    · obtain ⟨u, hu⟩ := emitNl_succ_head k
      exact ⟨u ++ c :: collapseGo 0 cs, by rw [collapseGo_cons_other _ _ _ hc, hu]; rfl⟩

theorem takeWhile_collapseGo0 (r : Doc) :
    (collapseGo 0 r).takeWhile (fun c => c ≠ '\n')
      = r.takeWhile (fun c => c ≠ '\n') := by
  induction r with
  | nil => rfl
  | cons c cs ih =>
    by_cases hc : c = '\n'
    · subst hc
      rw [collapseGo_cons_nl]
      obtain ⟨t, ht⟩ := collapseGo_succ_head cs 0
      rw [ht, List.takeWhile_cons, List.takeWhile_cons]
      simp
    · rw [collapseGo_cons_other _ _ _ hc, show emitNl 0 ++ c :: collapseGo 0 cs
        = c :: collapseGo 0 cs from rfl, List.takeWhile_cons, List.takeWhile_cons, ih]

theorem isPrefixOf_collapseGo0 (pat r : Doc) (hp : '\n' ∉ pat) :
    pat.isPrefixOf (collapseGo 0 r) = pat.isPrefixOf r := by
  rw [isPrefixOf_takeWhile_ne_nl pat _ hp, takeWhile_collapseGo0,
    ← isPrefixOf_takeWhile_ne_nl pat _ hp]

theorem lineStartHit_emitNl_append (pat : Doc) (p0 : Char) (pt : Doc)
    (hpat : pat = p0 :: pt) (hp0 : p0 ≠ '\n') (k : Nat) (w : Doc) :
    lineStartHit pat (emitNl k ++ w) = lineStartHit pat w := by
  unfold emitNl
  split
  · rw [show (['\n', '\n'] : Doc) ++ w = '\n' :: '\n' :: w from rfl,
      lineStartHit_cons_nl pat p0 pt _ hpat hp0, lineStartHit_cons_nl pat p0 pt _ hpat hp0]
  · rename_i h
    interval_cases k
    · rfl
    · rw [show (List.replicate 1 '\n' : Doc) ++ w = '\n' :: w from rfl,
        lineStartHit_cons_nl pat p0 pt _ hpat hp0]
    · rw [show (List.replicate 2 '\n' : Doc) ++ w = '\n' :: '\n' :: w from rfl,
        lineStartHit_cons_nl pat p0 pt _ hpat hp0, lineStartHit_cons_nl pat p0 pt _ hpat hp0]

/-- The blank-line cleanup cannot create a line that starts with a
(nonempty, newline-free) pattern. -/
theorem collapse_preserves_no_hit (pat : Doc) (p0 : Char) (pt : Doc)
    (hpat : pat = p0 :: pt) (hp0 : p0 ≠ '\n') (hpnl : '\n' ∉ pat) (c : Doc) :
    (∀ k, lineStartHit pat c = false → lineStartHit pat (collapseGo k c) = false) ∧
      (startHitAfterNl pat c = false → startHitAfterNl pat (collapseGo 0 c) = false) := by
  induction c with
  | nil =>
    constructor
    · intro k _
      rw [show collapseGo k [] = emitNl k from rfl, ← List.append_nil (emitNl k),
        lineStartHit_emitNl_append pat p0 pt hpat hp0]
      subst hpat
      rfl
    · intro _
      rfl
  | cons x r ih =>
    by_cases hx : x = '\n'
    · subst hx
      constructor
      · intro k hc
        rw [lineStartHit_cons_nl pat p0 pt r hpat hp0] at hc
        rw [collapseGo_cons_nl]
        exact ih.1 (k + 1) hc
      · intro hc
        rw [startHitAfterNl_cons_nl] at hc
        rcases Bool.or_eq_false_iff.1 hc with ⟨hc1, hc2⟩
        have hline : lineStartHit pat r = false := by
          rw [lineStartHit, hc1, hc2]
          rfl
        have h1 := ih.1 1 hline
        rw [collapseGo_cons_nl]
        rw [lineStartHit] at h1
        exact (Bool.or_eq_false_iff.1 h1).2
    · have hxr : collapseGo 0 (x :: r) = x :: collapseGo 0 r := by
        rw [collapseGo_cons_other 0 x r hx]
        rfl
      constructor
      · intro k hc
        rw [lineStartHit, startHitAfterNl_cons_other pat x r hx] at hc
        rcases Bool.or_eq_false_iff.1 hc with ⟨hc1, hc2⟩
        rw [collapseGo_cons_other k x r hx,
          lineStartHit_emitNl_append pat p0 pt hpat hp0 k,
          lineStartHit, startHitAfterNl_cons_other pat x _ hx, ← hxr,
          isPrefixOf_collapseGo0 pat _ hpnl, hc1, ih.2 hc2]
        rfl
      · intro hc
        rw [startHitAfterNl_cons_other pat x r hx] at hc
        rw [hxr, startHitAfterNl_cons_other pat x _ hx]
        exact ih.2 hc

/-! ### Claim C1: the active-revision-mechanism invariant -/

/-- After the tag-mode `SRCREV` commenting pass, no line starts with
`SRCREV = `. -/
theorem comment_srcrev_no_hit (c : Doc) :
    lineStartHit (strL "SRCREV = ") (comment_srcrev c) = false := by
  unfold comment_srcrev mapLines
  rw [lineStartHit_joinLines (strL "SRCREV = ") (by decide) _
    (by simp [docLines, splitCh_ne_nil])
    (by
      intro l hl
      obtain ⟨l0, hl0, rfl⟩ := List.mem_map.1 hl
      have hnl : '\n' ∉ l0 := docLines_no_nl c l0 hl0
      by_cases hp : (strL "SRCREV = ").isPrefixOf l0
      · rw [if_pos hp]
        intro hm
        rcases List.mem_cons.1 hm with h | h
        · exact absurd h.symm (by decide)
        · exact hnl h
      · rw [if_neg hp]
        exact hnl)]
  rw [List.any_eq_false]
  intro l' hl'
  obtain ⟨l0, hl0, rfl⟩ := List.mem_map.1 hl'
  by_cases hp : (strL "SRCREV = ").isPrefixOf l0
  · rw [if_pos hp]
    rw [show strL "SRCREV = " = 'S' :: strL "RCREV = " from rfl, isPrefixOf_cons_cons]
    simp
  · rw [if_neg hp]
    simpa using hp

/-- C1 counterexample: a tag-mode update on a document without any of the
fields succeeds while leaving *zero* revision mechanisms active — neither
a `PV`-with-`GIT_TAG` line nor an `SRCREV = "${AUTOREV}"` line exists, so
"exactly one active" fails. -/
theorem c1_counterexample :
    update_bb_file apiNone orgD (strL "v1.2.3") repoD compD (some (strL "hello"))
        = some (strL "hello") ∧
      activePVGitTag (strL "hello") = false ∧ activeAutorev (strL "hello") = false :=
  ⟨rfl, by decide, by decide⟩

/-- C1 amended: after a tag-mode update, the `SRCREV` mechanism is never
active — no output line begins with `SRCREV = ` (in particular no
`SRCREV = "${AUTOREV}"` line) — so the two mechanisms are never active at
the same time after tag mode; the exactly-one invariant itself does not
hold in general. -/
theorem c1_amended_tag_mode_no_active_srcrev (api : GitApi) (org tag repo comp content d : Doc)
    (ht : is_version_tag tag = true)
    (hd : update_bb_file api org tag repo comp (some content) = some d) :
    lineStartHit (strL "SRCREV = ") d = false ∧ activeAutorev d = false := by
  have hde : d = collapse (tag_mode_update api org repo comp tag content) := by
    simp [update_bb_file, ht] at hd
    exact hd.symm
  obtain ⟨c3, hc3⟩ : ∃ c3, tag_mode_update api org repo comp tag content = comment_srcrev c3 :=
    ⟨_, rfl⟩
  have hmain : lineStartHit (strL "SRCREV = ") d = false := by
    rw [hde, hc3, collapse]
    exact (collapse_preserves_no_hit (strL "SRCREV = ") 'S' (strL "RCREV = ") rfl
      (by decide) (by decide) (comment_srcrev c3)).1 0 (comment_srcrev_no_hit c3)
  refine ⟨hmain, ?_⟩
  unfold activeAutorev
  cases hA : lineStartHit (strL "SRCREV = \"${AUTOREV}\"") d with
  | false => rfl
  | true =>
    have hm := lineStartHit_mono (strL "SRCREV = ") (strL "SRCREV = \"${AUTOREV}\"") d
      (by decide) hA
    exact absurd hmain (by simp [hm])

/-- C1 amended witness: a recipe with an active `SRCREV` line, updated in
tag mode, ends with no active `SRCREV` mechanism. -/
theorem c1_amended_tag_mode_no_active_srcrev_witness :
    lineStartHit (strL "SRCREV = ")
        ((update_bb_file apiNone orgD (strL "v1.2.3") repoD compD
          (some (strL "SRCREV = \"abc\"\nLIC_FILES_CHKSUM = \"m\""))).getD []) = false ∧
      activeAutorev ((update_bb_file apiNone orgD (strL "v1.2.3") repoD compD
          (some (strL "SRCREV = \"abc\"\nLIC_FILES_CHKSUM = \"m\""))).getD []) = false :=
  c1_amended_tag_mode_no_active_srcrev apiNone orgD (strL "v1.2.3") repoD compD
    (strL "SRCREV = \"abc\"\nLIC_FILES_CHKSUM = \"m\"")
    ((update_bb_file apiNone orgD (strL "v1.2.3") repoD compD
      (some (strL "SRCREV = \"abc\"\nLIC_FILES_CHKSUM = \"m\""))).getD [])
    (by decide) (by rfl)

/-! ### Substring containment lemmas -/

theorem containsLit_eq_true_iff (lit l : Doc) :
    containsLit lit l = true ↔ ∃ i, lit.isPrefixOf (l.drop i) = true := by
  unfold containsLit occIdx
  rw [Bool.not_eq_true', List.isEmpty_eq_false_iff_exists_mem]
  constructor
  · rintro ⟨i, hi⟩
    exact ⟨i, (List.mem_filter.1 hi).2⟩
  · rintro ⟨i, hi⟩
    rcases le_or_lt i l.length with h | h
    · exact ⟨i, List.mem_filter.2 ⟨List.mem_range.2 (by omega), hi⟩⟩
    · have hd : l.drop i = [] := List.drop_of_length_le (by omega)
      rw [hd] at hi
      have hl : lit = [] := by
        have := List.isPrefixOf_iff_prefix.1 hi
        simpa using this
      exact ⟨l.length, List.mem_filter.2 ⟨List.mem_range.2 (by omega),
        by rw [hl]; exact nil_isPrefixOf _⟩⟩

theorem containsLit_eq_false_iff (lit l : Doc) :
    containsLit lit l = false ↔ ∀ i, lit.isPrefixOf (l.drop i) = false := by
  constructor
  · intro h i
    cases hp : lit.isPrefixOf (l.drop i) with
    | false => rfl
    | true =>
      have ht := (containsLit_eq_true_iff lit l).2 ⟨i, hp⟩
      rw [h] at ht
      exact absurd ht (by simp)
  · intro h
    cases hc : containsLit lit l with
    | false => rfl
    | true =>
      obtain ⟨i, hi⟩ := (containsLit_eq_true_iff lit l).1 hc
      rw [h i] at hi
      exact absurd hi (by simp)

theorem containsLit_occ_iff (lit l : Doc) :
    containsLit lit l = true ↔ lit <:+: l := by
  rw [containsLit_eq_true_iff]
  constructor
  · rintro ⟨i, hi⟩
    have hp : lit <+: l.drop i := List.isPrefixOf_iff_prefix.1 hi
    obtain ⟨t, ht⟩ := hp
    exact ⟨l.take i, t, by rw [List.append_assoc, ht, List.take_append_drop]⟩
  · rintro ⟨s, t, hst⟩
    refine ⟨s.length, ?_⟩
    rw [List.isPrefixOf_iff_prefix]
    have : l.drop s.length = lit ++ t := by
      rw [← hst, List.append_assoc, List.drop_left]
    rw [this]
    exact ⟨t, rfl⟩

/-- Containment is antitone in the literal: if a prefix of `lit2` is
missing then so is `lit2`. -/
theorem containsLit_mono_lit (lit1 lit2 l : Doc) (h12 : lit1.isPrefixOf lit2 = true)
    (h : containsLit lit1 l = false) : containsLit lit2 l = false := by
  rw [containsLit_eq_false_iff] at h ⊢
  intro i
  cases hp : lit2.isPrefixOf (l.drop i) with
  | false => rfl
  | true =>
    have h1 : lit1 <+: lit2 := List.isPrefixOf_iff_prefix.1 h12
    have h2 : lit2 <+: l.drop i := List.isPrefixOf_iff_prefix.1 hp
    have ht := List.isPrefixOf_iff_prefix.2 (h1.trans h2)
    rw [h i] at ht
    exact absurd ht (by simp)

theorem containsLit_of_isPrefixOf (lit l : Doc) (h : lit.isPrefixOf l = true) :
    containsLit lit l = true :=
  (containsLit_eq_true_iff lit l).2 ⟨0, by simpa using h⟩

theorem containsLit_cons_of (lit l : Doc) (c : Char) (h : containsLit lit (c :: l) = false) :
    containsLit lit l = false := by
  rw [containsLit_eq_false_iff] at h ⊢
  intro i
  have := h (i + 1)
  simpa using this

theorem containsLit_drop_of (lit l : Doc) (n : Nat) (h : containsLit lit l = false) :
    containsLit lit (l.drop n) = false := by
  rw [containsLit_eq_false_iff] at h ⊢
  intro i
  rw [List.drop_drop]
  exact h (n + i)

theorem isPrefixOf_false_of_not_contains (lit l : Doc) (h : containsLit lit l = false) :
    lit.isPrefixOf l = false := by
  rw [containsLit_eq_false_iff] at h
  simpa using h 0

/-- An infix of a passive context: a newline-free nonempty literal inside
`a ++ '\n' :: b` lies inside `a` or inside `b` (given `a` newline-free). -/
theorem infix_append_sep (s a b : Doc) (hs : '\n' ∉ s) (hsne : s ≠ []) (ha : '\n' ∉ a) :
    s <:+: (a ++ '\n' :: b) → s <:+: a ∨ s <:+: b := by
  induction a with
  | nil =>
    intro h
    rw [List.nil_append] at h
    rcases (List.infix_cons_iff).1 h with h' | h'
    · obtain ⟨c, cs, rfl⟩ : ∃ c cs, s = c :: cs := by
        cases s with
        | nil => exact absurd rfl hsne
        | cons c cs => exact ⟨c, cs, rfl⟩
      rcases List.cons_prefix_cons.1 h' with ⟨hc, _⟩
      exact absurd (hc ▸ List.mem_cons_self c cs) hs
    · exact Or.inr h'
  | cons x xs ih =>
    intro h
    have hxs : '\n' ∉ xs := fun hm => ha (List.mem_cons_of_mem x hm)
    rw [List.cons_append] at h
    rcases (List.infix_cons_iff).1 h with h' | h'
    · left
      have hb : s.isPrefixOf (x :: xs ++ '\n' :: b) = true := List.isPrefixOf_iff_prefix.2 h'
      rw [show x :: xs ++ '\n' :: b = (x :: xs) ++ '\n' :: b from rfl,
        isPrefixOf_append_sep s (x :: xs) b hs ha] at hb
      exact (List.isPrefixOf_iff_prefix.1 hb).isInfix
    · rcases ih hxs h' with h'' | h''
      · exact Or.inl (List.infix_cons h'')
      · exact Or.inr h''

/-- A newline-free nonempty literal occurring in a reassembled document
occurs in one of its lines. -/
theorem containsLit_joinLines_split (lit : Doc) (hlit : '\n' ∉ lit) (hne : lit ≠ [])
    (ls : List Doc) (hnl : ∀ l ∈ ls, '\n' ∉ l) :
    containsLit lit (joinLines ls) = true → ∃ l ∈ ls, containsLit lit l = true := by
  induction ls with
  | nil =>
    intro h
    rw [containsLit_occ_iff] at h
    have : lit = [] := by simpa using List.eq_nil_of_infix_nil h
    exact absurd this hne
  | cons l ls ih =>
    intro h
    cases ls with
    | nil => exact ⟨l, List.mem_cons_self l _, h⟩
    | cons m ms =>
      rw [containsLit_occ_iff] at h
      rw [show joinLines (l :: m :: ms) = l ++ '\n' :: joinLines (m :: ms) from rfl] at h
      rcases infix_append_sep lit l _ hlit hne (hnl l (List.mem_cons_self l _)) h with h' | h'
      · exact ⟨l, List.mem_cons_self l _, (containsLit_occ_iff _ _).2 h'⟩
      · obtain ⟨x, hx, hcx⟩ := ih (fun p hp => hnl p (List.mem_cons_of_mem l hp))
          ((containsLit_occ_iff _ _).2 h')
        exact ⟨x, List.mem_cons_of_mem l hx, hcx⟩

/-- A literal inside one line occurs in the reassembled document. -/
theorem containsLit_joinLines_of_mem (lit : Doc) (ls : List Doc) (l : Doc) (hl : l ∈ ls)
    (hc : containsLit lit l = true) : containsLit lit (joinLines ls) = true := by
  rw [containsLit_occ_iff] at hc ⊢
  refine hc.trans ?_
  clear hc
  induction ls with
  | nil => simp at hl
  | cons x xs ih =>
    rcases List.mem_cons.1 hl with h | h
    · subst h
      cases xs with
      | nil => exact List.infix_rfl
      | cons m ms =>
        rw [show joinLines (l :: m :: ms) = l ++ '\n' :: joinLines (m :: ms) from rfl]
        exact (List.prefix_append l _).isInfix
    · have := ih h
      cases xs with
      | nil => simp at h
      | cons m ms =>
        rw [show joinLines (x :: m :: ms) = x ++ '\n' :: joinLines (m :: ms) from rfl]
        refine this.trans ?_
        have h1 : joinLines (m :: ms) <:+ x ++ '\n' :: joinLines (m :: ms) :=
          (List.suffix_cons '\n' _).trans (List.suffix_append x _)
        exact h1.isInfix

/-! ### Global substitution: bridging to line structure -/

theorem substAllGo_fuel_eq (tm : Doc → Option Doc) (repl : Doc) (hsh : TmShrink tm) :
    ∀ (n : Nat) (l : Doc) (f1 f2 : Nat), l.length ≤ n → l.length ≤ f1 → l.length ≤ f2 →
      substAllGo tm repl f1 l = substAllGo tm repl f2 l := by
  intro n
  induction n with
  | zero =>
    intro l f1 f2 hn _ _
    have : l = [] := List.length_eq_zero.1 (by omega)
    subst this
    cases f1 <;> cases f2 <;> rfl
  | succ m ih =>
    intro l f1 f2 hn h1 h2
    cases l with
    | nil => cases f1 <;> cases f2 <;> rfl
    | cons c cs =>
      simp only [List.length_cons] at hn h1 h2
      obtain ⟨g1, rfl⟩ : ∃ g1, f1 = g1 + 1 := ⟨f1 - 1, by omega⟩
      obtain ⟨g2, rfl⟩ : ∃ g2, f2 = g2 + 1 := ⟨f2 - 1, by omega⟩
      show (match tm (c :: cs) with
        | some rest => repl ++ substAllGo tm repl g1 rest
        | none => c :: substAllGo tm repl g1 cs) =
        (match tm (c :: cs) with
        | some rest => repl ++ substAllGo tm repl g2 rest
        | none => c :: substAllGo tm repl g2 cs)
      cases htm : tm (c :: cs) with
      | some rest =>
        have hr := hsh _ _ htm
        simp only [List.length_cons] at hr
        show repl ++ substAllGo tm repl g1 rest = repl ++ substAllGo tm repl g2 rest
        rw [ih rest g1 g2 (by omega) (by omega) (by omega)]
      | none =>
        show c :: substAllGo tm repl g1 cs = c :: substAllGo tm repl g2 cs
        rw [ih cs g1 g2 (by omega) (by omega) (by omega)]

theorem substAll_cons_none (tm : Doc → Option Doc) (repl : Doc) (c : Char) (cs : Doc)
    (h : tm (c :: cs) = none) :
    substAll tm repl (c :: cs) = c :: substAll tm repl cs := by
  unfold substAll
  show (match tm (c :: cs) with
    | some rest => repl ++ substAllGo tm repl cs.length rest
    | none => c :: substAllGo tm repl cs.length cs) = _
  rw [h]

theorem substAll_match_head (tm : Doc → Option Doc) (repl : Doc) (hsh : TmShrink tm)
    (m b : Doc) (hne : m ≠ []) (hm : tm (m ++ b) = some b) :
    substAll tm repl (m ++ b) = repl ++ substAll tm repl b := by
  cases m with
  | nil => exact absurd rfl hne
  | cons c cs =>
    unfold substAll
    rw [List.cons_append]
    show (match tm (c :: (cs ++ b)) with
      | some rest => repl ++ substAllGo tm repl (cs ++ b).length rest
      | none => c :: substAllGo tm repl (cs ++ b).length (cs ++ b)) = _
    rw [show c :: (cs ++ b) = (c :: cs) ++ b from rfl, hm]
    show repl ++ substAllGo tm repl (cs ++ b).length b = repl ++ substAllGo tm repl b.length b
    rw [substAllGo_fuel_eq tm repl hsh b.length b (cs ++ b).length b.length (le_refl _)
      (by simp) (le_refl _)]

theorem substAll_append_no_match (tm : Doc → Option Doc) (repl : Doc) (a b : Doc)
    (h : ∀ i, i < a.length → tm (a.drop i ++ b) = none) :
    substAll tm repl (a ++ b) = a ++ substAll tm repl b := by
  induction a with
  | nil => rfl
  | cons c cs ih =>
    have h0 : tm ((c :: cs) ++ b) = none := by simpa using h 0 (by simp)
    rw [List.cons_append, substAll_cons_none tm repl c (cs ++ b) (by rw [← List.cons_append]; exact h0),
      ih (fun i hi => by simpa using h (i + 1) (by simpa using hi))]
    rfl

/-- Global substitution over a reassembled document, line by line: every
line is either inert for the matcher or wholly consumed by it (and then
replaced by `repl`, as computed by `g`). -/
theorem substAll_lines_map (tm : Doc → Option Doc) (repl : Doc) (hsh : TmShrink tm)
    (lit : Doc) (c0 : Char) (lit' : Doc) (hlit : lit = c0 :: lit') (hc0 : c0 ≠ '\n')
    (hstart : TmStart tm lit)
    (ls : List Doc) (g : Doc → Doc)
    (h : ∀ l ∈ ls, (InertFor tm l ∧ g l = l) ∨
      (l ≠ [] ∧ (∀ z, tm (l ++ z) = some z) ∧ g l = repl)) :
    substAll tm repl (joinLines ls) = joinLines (ls.map g) := by
  have hnil : tm [] = none := by
    cases htm : tm [] with
    | none => rfl
    | some r =>
      have := hstart [] r htm
      rw [hlit] at this
      exact absurd this (by simp [isPrefixOf_nil_right])
  have hnl : ∀ w, tm ('\n' :: w) = none := by
    intro w
    cases htm : tm ('\n' :: w) with
    | none => rfl
    | some r =>
      have := hstart _ r htm
      rw [hlit, isPrefixOf_cons_cons] at this
      have hb : (c0 == '\n') = false := by simp [hc0]
      rw [hb] at this
      exact absurd this (by simp)
  induction ls with
  | nil =>
    show substAll tm repl [] = []
    rfl
  | cons l ls ih =>
    rcases h l (List.mem_cons_self l _) with ⟨hin, hg⟩ | ⟨hne, hcons, hg⟩
    · cases ls with
      | nil =>
        show substAll tm repl (joinLines [l]) = joinLines (List.map g [l])
        rw [List.map_cons, List.map_nil, hg, show joinLines [l] = l from rfl,
          show substAll tm repl l = substAll tm repl (l ++ []) from by rw [List.append_nil]]
        rw [substAll_append_no_match tm repl l [] (fun i hi => hin [] (Or.inl rfl) i hi)]
        show l ++ substAll tm repl [] = l
        rw [show substAll tm repl [] = [] from rfl, List.append_nil]
      | cons m ms =>
        rw [show joinLines (l :: m :: ms) = l ++ '\n' :: joinLines (m :: ms) from rfl,
          substAll_append_no_match tm repl l _ (fun i hi => hin _ (Or.inr ⟨_, rfl⟩) i hi),
          substAll_cons_none tm repl '\n' _ (hnl _),
          ih (fun x hx => h x (List.mem_cons_of_mem l hx))]
        simp only [List.map_cons, hg]
        rfl
    · cases ls with
      | nil =>
        show substAll tm repl (joinLines [l]) = joinLines (List.map g [l])
        rw [List.map_cons, List.map_nil, hg, show joinLines [l] = l from rfl,
          show substAll tm repl l = substAll tm repl (l ++ []) from by rw [List.append_nil],
          substAll_match_head tm repl hsh l [] hne (by rw [List.append_nil]; simpa using hcons [])]
        show repl ++ substAll tm repl [] = joinLines [repl]
        rw [show substAll tm repl [] = [] from rfl, List.append_nil]
        rfl
      | cons m ms =>
        rw [show joinLines (l :: m :: ms) = l ++ '\n' :: joinLines (m :: ms) from rfl,
          substAll_match_head tm repl hsh l _ hne (hcons _),
          substAll_cons_none tm repl '\n' _ (hnl _),
          ih (fun x hx => h x (List.mem_cons_of_mem l hx))]
        simp only [List.map_cons, hg]
        rfl

/-! ### Matcher facts -/

theorem isPrefixOf_append_self (a b : Doc) : a.isPrefixOf (a ++ b) = true :=
  List.isPrefixOf_iff_prefix.2 (List.prefix_append a b)

theorem dropWhile_cons_pos (p : Char → Bool) (c : Char) (l : Doc) (h : p c = true) :
    (c :: l).dropWhile p = l.dropWhile p := by
  simp [List.dropWhile_cons, h]

theorem dropWhile_cons_neg (p : Char → Bool) (c : Char) (l : Doc) (h : p c = false) :
    (c :: l).dropWhile p = c :: l := by
  simp [List.dropWhile_cons, h]

theorem takeWhile_cons_pos (p : Char → Bool) (c : Char) (l : Doc) (h : p c = true) :
    (c :: l).takeWhile p = c :: l.takeWhile p := by
  simp [List.takeWhile_cons, h]

theorem takeWhile_cons_neg (p : Char → Bool) (c : Char) (l : Doc) (h : p c = false) :
    (c :: l).takeWhile p = [] := by
  simp [List.takeWhile_cons, h]

theorem litTm_start (lit : Doc) : TmStart (litTm lit) lit := by
  intro s r h
  unfold litTm at h
  split at h
  · assumption
  · exact absurd h (by simp)

theorem litTm_shrink (lit : Doc) (hne : lit ≠ []) : TmShrink (litTm lit) := by
  intro s r h
  unfold litTm at h
  split at h
  · rename_i hp
    have hlen : lit.length ≤ s.length := (List.isPrefixOf_iff_prefix.1 hp).length_le
    have hpos : 0 < lit.length := List.length_pos.2 hne
    have : r = s.drop lit.length := by
      injection h with h'
      exact h'.symm
    rw [this, List.length_drop]
    omega
  · exact absurd h (by simp)

theorem litTm_self (lit : Doc) (z : Doc) : litTm lit (lit ++ z) = some z := by
  unfold litTm
  rw [if_pos (isPrefixOf_append_self lit z), List.drop_left]

theorem length_dropWhile_le (p : Char → Bool) (l : Doc) :
    (l.dropWhile p).length ≤ l.length :=
  (List.dropWhile_suffix p).length_le

theorem srcUriTm_start (org repo : Doc) : TmStart (srcUriTm org repo) (strL "SRC_URI") := by
  intro s r h
  unfold srcUriTm at h
  split at h
  · assumption
  · exact absurd h (by simp)

theorem srcUriTm_shrink (org repo : Doc) : TmShrink (srcUriTm org repo) := by
  intro s r h
  unfold srcUriTm at h
  split at h
  case isFalse => exact absurd h (by simp)
  case isTrue hpre =>
    simp only [] at h
    split at h
    case isTrue => exact absurd h (by simp)
    case isFalse =>
      split at h
      case isFalse => exact absurd h (by simp)
      case isTrue hlit =>
        split at h
        case h_2 => exact absurd h (by simp)
        case h_1 rest heq =>
          have hr : rest = r := by injection h
          subst hr
          have h7 : 7 ≤ s.length := by
            have := (List.isPrefixOf_iff_prefix.1 hpre).length_le
            simpa using this
          have e1 : ((s.drop 7).dropWhile isWs).length ≤ s.length - 7 := by
            calc ((s.drop 7).dropWhile isWs).length ≤ (s.drop 7).length :=
              length_dropWhile_le _ _
            _ = s.length - 7 := by rw [List.length_drop]
          have e2 : ((((s.drop 7).dropWhile isWs).dropWhile fun c => c = ':' || c = '=').dropWhile
              isWs).length ≤ s.length - 7 := by
            calc _ ≤ (((s.drop 7).dropWhile isWs).dropWhile fun c => c = ':' || c = '=').length :=
              length_dropWhile_le _ _
            _ ≤ ((s.drop 7).dropWhile isWs).length := length_dropWhile_le _ _
            _ ≤ s.length - 7 := e1
          have e3 : rest.length + 1 ≤ s.length - 7 := by
            have hd : ('"' :: rest).length ≤
                ((((s.drop 7).dropWhile isWs).dropWhile fun c => c = ':' || c = '=').dropWhile
                  isWs).length := by
              rw [← heq]
              calc _ ≤ (((((s.drop 7).dropWhile isWs).dropWhile fun c => c = ':' || c = '=').dropWhile
                    isWs).drop (strL "\"git://github.com/" ++ org ++ strL "/" ++ repo ++
                      strL ".git").length).length := length_dropWhile_le _ _
              _ ≤ _ := by rw [List.length_drop]; omega
            simpa using hd.trans e2
          omega

/-- The matcher consumes the canonical tag-mode `SRC_URI` line whole,
whatever follows it. -/
theorem srcUriTm_canonical_tag (org repo branch comp : Doc)
    (hbq : '"' ∉ branch) (hcq : '"' ∉ comp) (z : Doc) :
    srcUriTm org repo (new_src_uri_tag org repo branch comp ++ z) = some z := by
  have hsplit : new_src_uri_tag org repo branch comp ++ z
      = strL "SRC_URI" ++ (' ' :: ':' :: '=' :: ' ' ::
          ((strL "\"git://github.com/" ++ org ++ strL "/" ++ repo ++ strL ".git") ++
            ((strL ";branch=" ++ branch ++ strL ";protocol=https;name=" ++ comp ++
              strL ";tag=${GIT_TAG}") ++ '"' :: z))) := by
    unfold new_src_uri_tag
    simp only [List.append_assoc, List.cons_append]
    rfl
  rw [hsplit]
  unfold srcUriTm
  rw [if_pos (by rfl)]
  simp only []
  rw [if_neg (fun h => nomatch h)]
  show (if (strL "\"git://github.com/" ++ org ++ strL "/" ++ repo ++ strL ".git").isPrefixOf
        ((strL "\"git://github.com/" ++ org ++ strL "/" ++ repo ++ strL ".git") ++
          ((strL ";branch=" ++ branch ++ strL ";protocol=https;name=" ++ comp ++
            strL ";tag=${GIT_TAG}") ++ '"' :: z)) = true then
      match (((strL "\"git://github.com/" ++ org ++ strL "/" ++ repo ++ strL ".git") ++
          ((strL ";branch=" ++ branch ++ strL ";protocol=https;name=" ++ comp ++
            strL ";tag=${GIT_TAG}") ++ '"' :: z)).drop
            (strL "\"git://github.com/" ++ org ++ strL "/" ++ repo ++ strL ".git").length).dropWhile
            (fun c => c ≠ '"') with
      | '"' :: rest => some rest
      | _ => none
    else none) = some z
  rw [if_pos (isPrefixOf_append_self _ _), List.drop_left]
  have hQ : ∀ c ∈ strL ";branch=" ++ branch ++ strL ";protocol=https;name=" ++ comp ++
      strL ";tag=${GIT_TAG}", decide (c ≠ '"') = true := by
    intro c hc
    simp only [List.mem_append] at hc
    have hcne : c ≠ '"' := by
      rcases hc with ((((h | h) | h) | h) | h)
      · exact (by decide : ∀ x ∈ strL ";branch=", x ≠ '"') c h
      · exact fun he => hbq (he ▸ h)
      · exact (by decide : ∀ x ∈ strL ";protocol=https;name=", x ≠ '"') c h
      · exact fun he => hcq (he ▸ h)
      · exact (by decide : ∀ x ∈ strL ";tag=${GIT_TAG}", x ≠ '"') c h
    simp [hcne]
  rw [dropWhile_append_all _ _ _ hQ, dropWhile_cons_neg _ _ _ (by decide)]
  rfl

/-- The matcher consumes the canonical branch-mode `SRC_URI` line whole,
whatever follows it. -/
theorem srcUriTm_canonical_branch (org repo branch comp : Doc)
    (hbq : '"' ∉ branch) (hcq : '"' ∉ comp) (z : Doc) :
    srcUriTm org repo (new_src_uri_branch org repo branch comp ++ z) = some z := by
  have hsplit : new_src_uri_branch org repo branch comp ++ z
      = strL "SRC_URI" ++ (' ' :: '=' :: ' ' ::
          ((strL "\"git://github.com/" ++ org ++ strL "/" ++ repo ++ strL ".git") ++
            ((strL ";branch=" ++ branch ++ strL ";protocol=https;name=" ++ comp ++
              strL ";") ++ '"' :: z))) := by
    unfold new_src_uri_branch
    simp only [List.append_assoc, List.cons_append]
    rfl
  rw [hsplit]
  unfold srcUriTm
  rw [if_pos (by rfl)]
  simp only []
  rw [if_neg (fun h => nomatch h)]
  show (if (strL "\"git://github.com/" ++ org ++ strL "/" ++ repo ++ strL ".git").isPrefixOf
        ((strL "\"git://github.com/" ++ org ++ strL "/" ++ repo ++ strL ".git") ++
          ((strL ";branch=" ++ branch ++ strL ";protocol=https;name=" ++ comp ++
            strL ";") ++ '"' :: z)) = true then
      match (((strL "\"git://github.com/" ++ org ++ strL "/" ++ repo ++ strL ".git") ++
          ((strL ";branch=" ++ branch ++ strL ";protocol=https;name=" ++ comp ++
            strL ";") ++ '"' :: z)).drop
            (strL "\"git://github.com/" ++ org ++ strL "/" ++ repo ++ strL ".git").length).dropWhile
            (fun c => c ≠ '"') with
      | '"' :: rest => some rest
      | _ => none
    else none) = some z
  rw [if_pos (isPrefixOf_append_self _ _), List.drop_left]
  have hQ : ∀ c ∈ strL ";branch=" ++ branch ++ strL ";protocol=https;name=" ++ comp ++
      strL ";", decide (c ≠ '"') = true := by
    intro c hc
    simp only [List.mem_append] at hc
    have hcne : c ≠ '"' := by
      rcases hc with ((((h | h) | h) | h) | h)
      · exact (by decide : ∀ x ∈ strL ";branch=", x ≠ '"') c h
      · exact fun he => hbq (he ▸ h)
      · exact (by decide : ∀ x ∈ strL ";protocol=https;name=", x ≠ '"') c h
      · exact fun he => hcq (he ▸ h)
      · exact (by decide : ∀ x ∈ strL ";", x ≠ '"') c h
    simp [hcne]
  rw [dropWhile_append_all _ _ _ hQ, dropWhile_cons_neg _ _ _ (by decide)]
  rfl

/-- A line without any occurrence of the matcher's start literal is inert
for it, whatever follows at the next line boundary. -/
theorem inertFor_of_no_occ (tm : Doc → Option Doc) (lit : Doc) (hstart : TmStart tm lit)
    (hlitnl : '\n' ∉ lit) (l : Doc) (hlnl : '\n' ∉ l)
    (hno : containsLit lit l = false) : InertFor tm l := by
  intro z hz i hi
  cases htm : tm (l.drop i ++ z) with
  | none => rfl
  | some r =>
    have hpre := hstart _ _ htm
    have hdnl : '\n' ∉ l.drop i := fun hm => hlnl (List.mem_of_mem_drop hm)
    have hpl : lit.isPrefixOf (l.drop i) = true := by
      rcases hz with hz | ⟨w, hz⟩
      · rwa [hz, List.append_nil] at hpre
      · rwa [hz, isPrefixOf_append_sep lit _ w hlitnl hdnl] at hpre
    rw [containsLit_eq_false_iff] at hno
    rw [hno i] at hpl
    exact absurd hpl (by simp)

theorem findLitQuote_some_isPrefixOf (lit l : Doc) (i : Nat)
    (h : findLitQuote lit l = some i) : lit.isPrefixOf (l.drop i) = true := by
  induction l generalizing i with
  | nil => simp [findLitQuote] at h
  | cons c cs ih =>
    rw [findLitQuote] at h
    split at h
    · rename_i hcond
      injection h with h'
      subst h'
      rw [List.drop_zero]
      rw [Bool.and_eq_true] at hcond
      exact hcond.1
    · cases hr : findLitQuote lit cs with
      | none => rw [hr] at h; exact absurd h (by simp)
      | some j =>
        rw [hr] at h
        injection h with h'
        subst h'
        exact ih j hr

theorem findLitQuote_none_of_no_occ (lit l : Doc) (h : containsLit lit l = false) :
    findLitQuote lit l = none := by
  cases hf : findLitQuote lit l with
  | none => rfl
  | some i =>
    have hp := findLitQuote_some_isPrefixOf lit l i hf
    rw [containsLit_eq_false_iff] at h
    rw [h i] at hp
    exact absurd hp (by simp)

theorem subGreedyQuoteLine_no_occ (lit repl l : Doc) (h : containsLit lit l = false) :
    subGreedyQuoteLine lit repl l = l := by
  unfold subGreedyQuoteLine
  rw [findLitQuote_none_of_no_occ lit l h]

theorem afterLastQuote_ends_quote (l : Doc) : afterLastQuote (l ++ [ '"' ]) = [] := by
  unfold afterLastQuote
  rw [List.reverse_append]
  simp [List.takeWhile_cons]

theorem gitTagL_assoc (tag : Doc) : gitTagL tag = strL "GIT_TAG = \"" ++ (tag ++ [ '"' ]) := by
  unfold gitTagL
  rw [List.append_assoc]

/-- The tag-mode `GIT_TAG` substitution maps the canonical `GIT_TAG` line
to itself. -/
theorem subGreedyQuoteLine_gitTagL (tag : Doc) :
    subGreedyQuoteLine (strL "GIT_TAG = \"") (strL "GIT_TAG = \"" ++ tag ++ [ '"' ])
      (gitTagL tag) = gitTagL tag := by
  have hq : hasQuote ((gitTagL tag).drop (strL "GIT_TAG = \"").length) = true := by
    rw [gitTagL_assoc, List.drop_left]
    simp [hasQuote]
  have hpre : (strL "GIT_TAG = \"").isPrefixOf (gitTagL tag) = true := by
    rw [gitTagL_assoc]
    exact isPrefixOf_append_self _ _
  have hcond : ((strL "GIT_TAG = \"").isPrefixOf (gitTagL tag) &&
      hasQuote ((gitTagL tag).drop (strL "GIT_TAG = \"").length)) = true := by
    rw [hpre, hq]
    rfl
  have hfind : findLitQuote (strL "GIT_TAG = \"") (gitTagL tag) = some 0 := by
    rw [show gitTagL tag = 'G' :: (strL "IT_TAG = \"" ++ (tag ++ [ '"' ])) from rfl,
      findLitQuote,
      show 'G' :: (strL "IT_TAG = \"" ++ (tag ++ [ '"' ])) = gitTagL tag from rfl,
      if_pos hcond]
  unfold subGreedyQuoteLine
  rw [hfind]
  show (gitTagL tag).take 0 ++ (strL "GIT_TAG = \"" ++ tag ++ [ '"' ]) ++
    afterLastQuote (gitTagL tag) = gitTagL tag
  rw [List.take_zero, List.nil_append,
    show gitTagL tag = (strL "GIT_TAG = \"" ++ tag) ++ [ '"' ] from rfl,
    afterLastQuote_ends_quote, List.append_nil]

theorem gitTagLineMatch_gitTagL (tag : Doc) : gitTagLineMatch (gitTagL tag) = some [] := by
  have hq : hasQuote ((gitTagL tag).drop 11) = true := by
    rw [gitTagL_assoc, show (11 : Nat) = (strL "GIT_TAG = \"").length from rfl, List.drop_left]
    simp [hasQuote]
  have hpre : (strL "GIT_TAG = \"").isPrefixOf (gitTagL tag) = true := by
    rw [gitTagL_assoc]
    exact isPrefixOf_append_self _ _
  have hcond : ((strL "GIT_TAG = \"").isPrefixOf (gitTagL tag) &&
      hasQuote ((gitTagL tag).drop 11)) = true := by
    rw [hpre, hq]
    rfl
  unfold gitTagLineMatch
  rw [if_pos hcond,
    show gitTagL tag = (strL "GIT_TAG = \"" ++ tag) ++ [ '"' ] from rfl,
    afterLastQuote_ends_quote]

theorem gitTagLineMatch_none_of_no_occ (l : Doc)
    (h : containsLit (strL "GIT_TAG = \"") l = false) : gitTagLineMatch l = none := by
  unfold gitTagLineMatch
  rw [if_neg]
  rw [Bool.and_eq_true]
  rintro ⟨h1, _⟩
  rw [isPrefixOf_false_of_not_contains _ _ h] at h1
  exact absurd h1 (by simp)

/-- Properties of the `GIT_TAG` line removal when every line either does
not match or matches as a whole line. -/
theorem removeGitTagLines_clean (ls : List Doc)
    (h : ∀ l ∈ ls, gitTagLineMatch l = none ∨ gitTagLineMatch l = some []) :
    (∀ l' ∈ removeGitTagLines ls, l' = [] ∨ (l' ∈ ls ∧ gitTagLineMatch l' = none)) ∧
      (∀ l ∈ ls, gitTagLineMatch l = none → l ∈ removeGitTagLines ls) ∧
      (ls ≠ [] → removeGitTagLines ls ≠ []) := by
  induction ls with
  | nil => exact ⟨by simp [removeGitTagLines], by simp, fun h' => absurd rfl h'⟩
  | cons l ls ih =>
    obtain ⟨ih1, ih2, ih3⟩ := ih (fun x hx => h x (List.mem_cons_of_mem l hx))
    rcases h l (List.mem_cons_self l _) with hm | hm
    · refine ⟨?_, ?_, ?_⟩
      · intro l' hl'
        simp only [removeGitTagLines, hm] at hl'
        rcases List.mem_cons.1 hl' with h' | h'
        · exact Or.inr ⟨h' ▸ List.mem_cons_self l _, h' ▸ hm⟩
        · rcases ih1 l' h' with h'' | ⟨h1, h2⟩
          · exact Or.inl h''
          · exact Or.inr ⟨List.mem_cons_of_mem l h1, h2⟩
      · intro x hx hxm
        simp only [removeGitTagLines, hm]
        rcases List.mem_cons.1 hx with h' | h'
        · exact h' ▸ List.mem_cons_self l _
        · exact List.mem_cons_of_mem l (ih2 x h' hxm)
      · intro _
        simp only [removeGitTagLines, hm]
        simp
    · refine ⟨?_, ?_, ?_⟩
      · intro l' hl'
        simp only [removeGitTagLines, hm] at hl'
        cases ls with
        | nil =>
          simp at hl'
          exact Or.inl hl'
        | cons m ms =>
          rcases ih1 l' hl' with h'' | ⟨h1, h2⟩
          · exact Or.inl h''
          · exact Or.inr ⟨List.mem_cons_of_mem l h1, h2⟩
      · intro x hx hxm
        simp only [removeGitTagLines, hm]
        rcases List.mem_cons.1 hx with h' | h'
        · rw [h'] at hxm
          rw [hxm] at hm
          exact absurd hm (by simp)
        · cases ls with
          | nil => simp at h'
          | cons m ms => exact ih2 x h' hxm
      · intro _
        simp only [removeGitTagLines, hm]
        cases ls with
        | nil => simp
        | cons m ms => exact ih3 (by simp)

/-! ### More collapse lemmas -/

theorem isPrefix_collapseGo0_of_isPrefix (s : Doc) (hs : '\n' ∉ s) :
    ∀ r : Doc, s <+: r → s <+: collapseGo 0 r := by
  induction s with
  | nil => intro r _; exact List.nil_prefix
  | cons c s' ih =>
    intro r hp
    have hc : c ≠ '\n' := fun h => hs (h ▸ List.mem_cons_self c s')
    have hs' : '\n' ∉ s' := fun h => hs (List.mem_cons_of_mem c h)
    obtain ⟨t, ht⟩ := hp
    cases r with
    | nil => simp at ht
    | cons x r' =>
      rw [List.cons_append] at ht
      injection ht with h1 h2
      subst h1
      rw [collapseGo_cons_other 0 c r' hc, show emitNl 0 ++ c :: collapseGo 0 r' = c :: collapseGo 0 r' from rfl]
      have hp2 : s' <+: r' := ⟨t, h2⟩
      exact List.cons_prefix_cons.2 ⟨rfl, ih hs' r' hp2⟩

theorem infix_collapseGo_of_infix (s : Doc) (hs : '\n' ∉ s) :
    ∀ r : Doc, ∀ k, s <:+: r → s <:+: collapseGo k r := by
  intro r
  induction r with
  | nil =>
    intro k h
    have : s = [] := by simpa using List.eq_nil_of_infix_nil h
    subst this
    exact List.nil_infix
  | cons x r' ih =>
    intro k h
    by_cases hx : x = '\n'
    · subst hx
      rw [collapseGo_cons_nl]
      rcases List.infix_cons_iff.1 h with h' | h'
      · cases s with
        | nil => exact List.nil_infix
        | cons c s' =>
          rcases List.cons_prefix_cons.1 h' with ⟨hc, _⟩
          exact absurd (hc ▸ List.mem_cons_self c s') hs
      · exact ih (k + 1) h'
    · rw [collapseGo_cons_other k x r' hx]
      have hsuf : (x :: collapseGo 0 r') <:+ emitNl k ++ x :: collapseGo 0 r' :=
        List.suffix_append _ _
      rcases List.infix_cons_iff.1 h with h' | h'
      · cases s with
        | nil => exact List.nil_infix
        | cons c s' =>
          rcases List.cons_prefix_cons.1 h' with ⟨hc, hp⟩
          have hs' : '\n' ∉ s' := fun hm => hs (List.mem_cons_of_mem c hm)
          have h3 := isPrefix_collapseGo0_of_isPrefix s' hs' r' hp
          have hpre : (c :: s') <+: (x :: collapseGo 0 r') := by
            rw [hc]
            exact List.cons_prefix_cons.2 ⟨rfl, h3⟩
          exact hpre.isInfix.trans hsuf.isInfix
      · have h4 := ih 0 h'
        have h2 : collapseGo 0 r' <:+: x :: collapseGo 0 r' := (List.suffix_cons x _).isInfix
        exact (h4.trans h2).trans hsuf.isInfix

theorem infix_of_infix_replicate_append (s : Doc) (hs : '\n' ∉ s) (hne : s ≠ []) :
    ∀ (m : Nat) (w : Doc), s <:+: List.replicate m '\n' ++ w → s <:+: w := by
  intro m
  induction m with
  | zero => intro w h; simpa using h
  | succ n ih =>
    intro w h
    rw [List.replicate_succ, List.cons_append] at h
    rcases List.infix_cons_iff.1 h with h' | h'
    · cases s with
      | nil => exact absurd rfl hne
      | cons c s' =>
        rcases List.cons_prefix_cons.1 h' with ⟨hc, _⟩
        exact absurd (hc ▸ List.mem_cons_self c s') hs
    · exact ih w h'

theorem isPrefix_of_isPrefix_collapseGo0 (s : Doc) (hs : '\n' ∉ s) :
    ∀ r : Doc, s <+: collapseGo 0 r → s <+: r := by
  induction s with
  | nil => intro r _; exact List.nil_prefix
  | cons c s' ih =>
    intro r hp
    have hc : c ≠ '\n' := fun h => hs (h ▸ List.mem_cons_self c s')
    have hs' : '\n' ∉ s' := fun h => hs (List.mem_cons_of_mem c h)
    cases r with
    | nil =>
      rw [show collapseGo 0 [] = [] from rfl] at hp
      simpa using hp
    | cons x r' =>
      by_cases hx : x = '\n'
      · subst hx
        rw [collapseGo_cons_nl] at hp
        obtain ⟨t, ht⟩ := collapseGo_succ_head r' 0
        rw [ht] at hp
        rcases List.cons_prefix_cons.1 hp with ⟨hcx, _⟩
        exact absurd hcx hc
      · rw [collapseGo_cons_other 0 x r' hx,
          show emitNl 0 ++ x :: collapseGo 0 r' = x :: collapseGo 0 r' from rfl] at hp
        rcases List.cons_prefix_cons.1 hp with ⟨hcx, hp'⟩
        rw [hcx]
        exact List.cons_prefix_cons.2 ⟨rfl, ih hs' r' hp'⟩

theorem infix_of_infix_collapseGo (s : Doc) (hs : '\n' ∉ s) (hne : s ≠ []) :
    ∀ r : Doc, ∀ k, s <:+: collapseGo k r → s <:+: r := by
  intro r
  induction r with
  | nil =>
    intro k h
    rw [show collapseGo k [] = emitNl k from rfl, emitNl_eq] at h
    have := infix_of_infix_replicate_append s hs hne (min k 2) [] (by simpa using h)
    have hnil : s = [] := by simpa using List.eq_nil_of_infix_nil this
    exact absurd hnil hne
  | cons x r' ih =>
    intro k h
    by_cases hx : x = '\n'
    · subst hx
      rw [collapseGo_cons_nl] at h
      exact List.infix_cons (ih (k + 1) h)
    · rw [collapseGo_cons_other k x r' hx, emitNl_eq] at h
      have h2 := infix_of_infix_replicate_append s hs hne (min k 2) _ h
      rcases List.infix_cons_iff.1 h2 with h' | h'
      · cases s with
        | nil => exact absurd rfl hne
        | cons c s' =>
          rcases List.cons_prefix_cons.1 h' with ⟨hc, hp⟩
          have hs' : '\n' ∉ s' := fun hm => hs (List.mem_cons_of_mem c hm)
          have h3 := isPrefix_of_isPrefix_collapseGo0 s' hs' r' hp
          have hpre : (c :: s') <+: (x :: r') := by
            rw [hc]
            exact List.cons_prefix_cons.2 ⟨rfl, h3⟩
          exact hpre.isInfix
      · exact List.infix_cons (ih 0 h')

/-- The blank-line cleanup keeps every existing line-start hit. -/
theorem collapse_keeps_hit (pat : Doc) (p0 : Char) (pt : Doc)
    (hpat : pat = p0 :: pt) (hp0 : p0 ≠ '\n') (hpnl : '\n' ∉ pat) (c : Doc) :
    (∀ k, lineStartHit pat c = true → lineStartHit pat (collapseGo k c) = true) ∧
      (startHitAfterNl pat c = true → startHitAfterNl pat (collapseGo 0 c) = true) := by
  induction c with
  | nil =>
    constructor
    · intro k hc
      rw [lineStartHit, hpat, isPrefixOf_nil_right] at hc
      simpa [startHitAfterNl] using hc
    · intro hc
      simp [startHitAfterNl] at hc
  | cons x r ih =>
    by_cases hx : x = '\n'
    · subst hx
      constructor
      · intro k hc
        rw [lineStartHit_cons_nl pat p0 pt r hpat hp0] at hc
        rw [collapseGo_cons_nl]
        exact ih.1 (k + 1) hc
      · intro hc
        rw [startHitAfterNl_cons_nl] at hc
        rw [collapseGo_cons_nl]
        have hline : lineStartHit pat r = true := by
          rw [lineStartHit]
          exact hc
        have h1 := ih.1 1 hline
        show startHitAfterNl pat (collapseGo 1 r) = true
        obtain ⟨t, ht⟩ := collapseGo_succ_head r 0
        have ht1 : collapseGo 1 r = '\n' :: t := ht
        rw [ht1] at h1 ⊢
        rw [lineStartHit_cons_nl pat p0 pt t hpat hp0, lineStartHit] at h1
        rw [startHitAfterNl_cons_nl]
        exact h1
    · have hxr : collapseGo 0 (x :: r) = x :: collapseGo 0 r := by
        rw [collapseGo_cons_other 0 x r hx]
        rfl
      constructor
      · intro k hc
        rw [lineStartHit, startHitAfterNl_cons_other pat x r hx] at hc
        rw [collapseGo_cons_other k x r hx,
          lineStartHit_emitNl_append pat p0 pt hpat hp0 k,
          lineStartHit, startHitAfterNl_cons_other pat x _ hx, ← hxr,
          isPrefixOf_collapseGo0 pat _ hpnl]
        rcases Bool.or_eq_true_iff.1 hc with h' | h'
        · rw [h']
          simp
        · rw [ih.2 h']
          simp
      · intro hc
        rw [startHitAfterNl_cons_other pat x r hx] at hc
        rw [hxr, startHitAfterNl_cons_other pat x _ hx]
        exact ih.2 hc

/-- Without a run of three newlines the cleanup is the identity. -/
theorem collapse_id_of_no_triple (d : Doc)
    (h : containsLit (strL "\n\n\n") d = false) : collapse d = d := by
  suffices H : ∀ n : Nat, ∀ d : Doc, d.length ≤ n →
      containsLit (strL "\n\n\n") d = false → collapseGo 0 d = d from
    H d.length d (le_refl _) h
  intro n
  induction n with
  | zero =>
    intro d hd _
    have : d = [] := List.length_eq_zero.1 (by omega)
    subst this
    rfl
  | succ m ih =>
    intro d hd hno
    cases d with
    | nil => rfl
    | cons x r =>
      by_cases hx : x = '\n'
      · subst hx
        rw [collapseGo_cons_nl]
        cases r with
        | nil => rfl
        | cons y r2 =>
          by_cases hy : y = '\n'
          · subst hy
            rw [collapseGo_cons_nl]
            cases r2 with
            | nil => rfl
            | cons w r3 =>
              by_cases hw : w = '\n'
              · subst hw
                have : (strL "\n\n\n").isPrefixOf ('\n' :: '\n' :: '\n' :: r3) = true := by
                  rw [show strL "\n\n\n" = ['\n', '\n', '\n'] from rfl]
                  rw [show ('\n' :: '\n' :: '\n' :: r3 : Doc)
                    = ['\n', '\n', '\n'] ++ r3 from rfl]
                  exact isPrefixOf_append_self _ _
                rw [containsLit_eq_false_iff] at hno
                have h0 := hno 0
                rw [List.drop_zero] at h0
                rw [h0] at this
                exact absurd this (by simp)
              · show collapseGo 2 (w :: r3) = '\n' :: '\n' :: w :: r3
                rw [collapseGo_cons_other 2 w r3 hw]
                simp only [List.length_cons] at hd
                rw [ih r3 (by omega)
                  (containsLit_cons_of _ _ _ (containsLit_cons_of _ _ _
                    (containsLit_cons_of _ _ _ hno)))]
                rfl
          · show collapseGo 1 (y :: r2) = '\n' :: y :: r2
            rw [collapseGo_cons_other 1 y r2 hy]
            simp only [List.length_cons] at hd
            rw [ih r2 (by omega) (containsLit_cons_of _ _ _ (containsLit_cons_of _ _ _ hno))]
            rfl
      · rw [collapseGo_cons_other 0 x r hx]
        simp only [List.length_cons] at hd
        rw [ih r (by omega) (containsLit_cons_of _ _ _ hno)]
        rfl

/-! ### Line-level bridges and head-shape facts -/

theorem mapLines_joinLines (f : Doc → Doc) (ls : List Doc) (hne : ls ≠ [])
    (hnl : ∀ l ∈ ls, '\n' ∉ l) :
    mapLines f (joinLines ls) = joinLines (ls.map f) := by
  unfold mapLines
  rw [docLines_joinLines ls hne hnl]

theorem map_self_of_eq (f : Doc → Doc) (ls : List Doc) (h : ∀ l ∈ ls, f l = l) :
    ls.map f = ls := by
  induction ls with
  | nil => rfl
  | cons x xs ih =>
    rw [List.map_cons, h x (List.mem_cons_self x _),
      ih (fun l hl => h l (List.mem_cons_of_mem x hl))]

theorem new_src_uri_tag_eq_cons (org repo branch comp : Doc) :
    ∃ r, new_src_uri_tag org repo branch comp = 'S' :: 'R' :: 'C' :: '_' :: r :=
  ⟨_, rfl⟩

theorem new_src_uri_branch_eq_cons (org repo bn comp : Doc) :
    ∃ r, new_src_uri_branch org repo bn comp = 'S' :: 'R' :: 'C' :: '_' :: r :=
  ⟨_, rfl⟩

theorem gitTagL_eq_cons (tag : Doc) : ∃ r, gitTagL tag = 'G' :: r := ⟨_, rfl⟩

theorem new_src_uri_tag_ne_nil (org repo branch comp : Doc) :
    new_src_uri_tag org repo branch comp ≠ [] := by
  obtain ⟨r, hr⟩ := new_src_uri_tag_eq_cons org repo branch comp
  rw [hr]
  exact List.cons_ne_nil _ _

theorem new_src_uri_tag_split (org repo branch comp : Doc) :
    ∃ r, new_src_uri_tag org repo branch comp = strL "SRC_URI" ++ r :=
  ⟨_, rfl⟩

theorem srcuri_isPrefixOf_new_tag (org repo branch comp : Doc) :
    (strL "SRC_URI").isPrefixOf (new_src_uri_tag org repo branch comp) = true := by
  obtain ⟨r, hr⟩ := new_src_uri_tag_split org repo branch comp
  rw [hr]
  exact isPrefixOf_append_self _ _

theorem ne_new_tag_of_no_src_uri (org repo branch comp : Doc) (l : Doc)
    (hl : containsLit (strL "SRC_URI") l = false) :
    l ≠ new_src_uri_tag org repo branch comp := by
  intro h
  rw [h, containsLit_of_isPrefixOf _ _ (srcuri_isPrefixOf_new_tag org repo branch comp)] at hl
  exact absurd hl (by simp)

theorem srcrev_not_prefix_gitTagL (tag : Doc) :
    (strL "SRCREV = ").isPrefixOf (gitTagL tag) = false := by
  obtain ⟨r, hr⟩ := gitTagL_eq_cons tag
  rw [hr, show strL "SRCREV = " = 'S' :: strL "RCREV = " from rfl, isPrefixOf_cons_cons,
    show ('S' == 'G') = false from by decide]
  simp

theorem srcrev_not_prefix_new_tag (org repo branch comp : Doc) :
    (strL "SRCREV = ").isPrefixOf (new_src_uri_tag org repo branch comp) = false := by
  obtain ⟨r, hr⟩ := new_src_uri_tag_eq_cons org repo branch comp
  rw [hr, show strL "SRCREV = " = 'S' :: 'R' :: 'C' :: 'R' :: strL "EV = " from rfl,
    isPrefixOf_cons_cons, isPrefixOf_cons_cons, isPrefixOf_cons_cons, isPrefixOf_cons_cons,
    show ('R' == '_') = false from by decide]
  simp

theorem comm_srcrev_not_prefix_new_branch (org repo bn comp : Doc) :
    (strL "#SRCREV = ").isPrefixOf (new_src_uri_branch org repo bn comp) = false := by
  obtain ⟨r, hr⟩ := new_src_uri_branch_eq_cons org repo bn comp
  rw [hr, show strL "#SRCREV = " = '#' :: strL "SRCREV = " from rfl, isPrefixOf_cons_cons,
    show ('#' == 'S') = false from by decide]
  simp

/-- Uncommenting a disabled `SRCREV` line does not leave a line that still
starts with `#SRCREV = `: the stripped line starts with `SRCREV = `. -/
theorem comm_srcrev_not_prefix_drop (x : Doc)
    (h : (strL "#SRCREV = ").isPrefixOf x = true) :
    (strL "#SRCREV = ").isPrefixOf (x.drop 1) = false := by
  cases x with
  | nil =>
    rw [show strL "#SRCREV = " = '#' :: strL "SRCREV = " from rfl,
      isPrefixOf_nil_right] at h
    exact absurd h (by simp)
  | cons c rest =>
    rw [show strL "#SRCREV = " = '#' :: strL "SRCREV = " from rfl,
      isPrefixOf_cons_cons, Bool.and_eq_true] at h
    have hrest := h.2
    rw [show (List.drop 1 (c :: rest) : Doc) = rest from rfl]
    cases rest with
    | nil =>
      rw [show strL "SRCREV = " = 'S' :: strL "RCREV = " from rfl,
        isPrefixOf_nil_right] at hrest
      exact absurd hrest (by simp)
    | cons c2 r2 =>
      rw [show strL "SRCREV = " = 'S' :: strL "RCREV = " from rfl,
        isPrefixOf_cons_cons, Bool.and_eq_true] at hrest
      have hc2 : c2 = 'S' := by
        have h3 := hrest.1
        rw [beq_iff_eq] at h3
        exact h3.symm
      rw [hc2, show strL "#SRCREV = " = '#' :: strL "SRCREV = " from rfl,
        isPrefixOf_cons_cons, show ('#' == 'S') = false from by decide]
      simp

/-! ### Claim C2: idempotence of the tag-mode update -/

/-- C2 counterexample: running the tag-mode update on its own output is not
the identity — the first run succeeds, but feeding its output back changes
the document again (the greedy quote-spanning rewrites eat trailing quoted
text of the first output), so the update is not idempotent in general. -/
theorem c2_counterexample :
    (update_bb_file apiNone orgD (strL "v1.2.3") repoD compD (some docC2)).isSome = true ∧
      ((update_bb_file apiNone orgD (strL "v1.2.3") repoD compD (some docC2)).bind
          (fun d1 => update_bb_file apiNone orgD (strL "v1.2.3") repoD compD (some d1)))
        ≠ update_bb_file apiNone orgD (strL "v1.2.3") repoD compD (some docC2) :=
  ⟨by decide, by decide⟩

/-- C2 amended: the tag-mode update is a fixed point on canonical tag-mode
recipes — documents whose lines are the canonical `GIT_TAG`, `SRC_URI`,
and `PV` lines plus passive lines, with the branch resolution returning
the recorded branch and no triple-newline run.  On such a document (in
particular, on well-formed recipe files already in the form the updater
itself writes) a second run reproduces its input.  Unrestricted
idempotence fails (see the counterexample). -/
theorem c2_amended_tag_mode_fixed_point (api : GitApi)
    (org repo branch comp tag : Doc) (ls : List Doc)
    (hc : IsCanonTagDoc org repo branch comp tag ls)
    (htag : is_version_tag tag = true)
    (hres : resolve_branch api org repo tag (joinLines ls) = branch)
    (hno3 : containsLit (strL "\n\n\n") (joinLines ls) = false) :
    update_bb_file api org tag repo comp (some (joinLines ls)) = some (joinLines ls) := by
  have hne : ls ≠ [] := List.ne_nil_of_mem hc.has_git
  have hnl := hc.nl_ok
  have hstep : update_bb_file api org tag repo comp (some (joinLines ls))
      = some (collapse (tag_mode_update api org repo comp tag (joinLines ls))) := by
    simp [update_bb_file, htag]
  have hgitmem : containsLit (strL "GIT_TAG = ") (joinLines ls) = true :=
    containsLit_joinLines_of_mem _ ls _ hc.has_git
      (containsLit_of_isPrefixOf _ _ (by
        rw [show gitTagL tag = strL "GIT_TAG = " ++ ('"' :: (tag ++ [ '"' ])) from rfl]
        exact isPrefixOf_append_self _ _))
  have hpvmem : containsLit (strL "PV = ") (joinLines ls) = true :=
    containsLit_joinLines_of_mem _ ls _ hc.has_pv
      (containsLit_of_isPrefixOf _ _ (by decide))
  have h1 : sub_git_tag tag (joinLines ls) = joinLines ls := by
    unfold sub_git_tag
    rw [mapLines_joinLines _ ls hne hnl, map_self_of_eq]
    intro l hl
    rcases hc.mem_ok l hl with rfl | rfl | rfl | hp
    · exact subGreedyQuoteLine_gitTagL tag
    · exact subGreedyQuoteLine_no_occ _ _ _ hc.src_no_gitq
    · exact subGreedyQuoteLine_no_occ _ _ _ (by decide)
    · exact subGreedyQuoteLine_no_occ _ _ _
        (containsLit_mono_lit (strL "GIT_TAG") (strL "GIT_TAG = \"") l (by decide) hp.1)
  have h2 : sub_src_uri org repo (new_src_uri_tag org repo branch comp) (joinLines ls)
      = joinLines ls := by
    have hper : ∀ l ∈ ls, (InertFor (srcUriTm org repo) l ∧ id l = l) ∨
        (l ≠ [] ∧ (∀ z, srcUriTm org repo (l ++ z) = some z) ∧
          id l = new_src_uri_tag org repo branch comp) := by
      intro l hl
      rcases hc.mem_ok l hl with rfl | rfl | rfl | hp
      · exact Or.inl ⟨inertFor_of_no_occ _ _ (srcUriTm_start org repo) (by decide) _
          (hnl _ hl) hc.git_no_src, rfl⟩
      · exact Or.inr ⟨new_src_uri_tag_ne_nil org repo branch comp,
          fun z => srcUriTm_canonical_tag org repo branch comp hc.branch_qf hc.comp_qf z, rfl⟩
      · exact Or.inl ⟨inertFor_of_no_occ _ _ (srcUriTm_start org repo) (by decide) _
          (by decide) (by decide), rfl⟩
      · exact Or.inl ⟨inertFor_of_no_occ _ _ (srcUriTm_start org repo) (by decide) _
          (hnl _ hl) hp.2.1, rfl⟩
    unfold sub_src_uri
    rw [substAll_lines_map (srcUriTm org repo) _ (srcUriTm_shrink org repo) (strL "SRC_URI")
      'S' (strL "RC_URI") rfl (by decide) (srcUriTm_start org repo) ls id hper, List.map_id]
  have h3 : sub_pv (joinLines ls) = joinLines ls := by
    unfold sub_pv
    rw [mapLines_joinLines _ ls hne hnl, map_self_of_eq]
    intro l hl
    rcases hc.mem_ok l hl with rfl | rfl | rfl | hp
    · exact subGreedyQuoteLine_no_occ _ _ _ hc.git_no_pvq
    · exact subGreedyQuoteLine_no_occ _ _ _ hc.src_no_pvq
    · decide
    · exact subGreedyQuoteLine_no_occ _ _ _ hp.2.2.1
  have h4 : comment_srcrev (joinLines ls) = joinLines ls := by
    unfold comment_srcrev
    rw [mapLines_joinLines _ ls hne hnl, map_self_of_eq]
    intro l hl
    rcases hc.mem_ok l hl with rfl | rfl | rfl | hp
    · simp [srcrev_not_prefix_gitTagL tag]
    · simp [srcrev_not_prefix_new_tag org repo branch comp]
    · decide
    · simp [hp.2.2.2.1]
  have hmain : tag_mode_update api org repo comp tag (joinLines ls) = joinLines ls := by
    unfold tag_mode_update
    simp only []
    rw [hres, if_pos hgitmem, h1, h2, if_pos hpvmem, h3, h4]
  rw [hstep, hmain, collapse_id_of_no_triple _ hno3]

/-- C2 amended witness: a concrete canonical recipe is reproduced verbatim
by the tag-mode update. -/
theorem c2_amended_tag_mode_fixed_point_witness :
    update_bb_file apiNone orgD (strL "v1.2.3") repoD compD (some (joinLines lsC2))
      = some (joinLines lsC2) :=
  c2_amended_tag_mode_fixed_point apiNone orgD repoD (strL "releases/1.2.0-main") compD
    (strL "v1.2.3") lsC2
    ⟨by decide, by decide, by decide, by decide, by decide, by decide, by decide, by decide,
      by decide, by decide⟩
    (by decide) (by decide) (by decide)

/-! ### Claim C4: the branch-mode rewrite -/

/-- C4: a branch-mode run on a canonical tag-mode recipe — possibly
holding disabled (commented-out) `#SRCREV` lines, which the run
re-enables — removes every `GIT_TAG` occurrence, rewrites the `SRC_URI`
line to the branch form for the requested release branch, leaves an
active `SRCREV = "${AUTOREV}"` line, and leaves no commented `#SRCREV`
line. -/
theorem c4_branch_mode_rewrite (api : GitApi) (org repo branch comp tag bn : Doc)
    (ls : List Doc) (d' : Doc)
    (hc : IsCanonTagDoc org repo branch comp tag ls)
    (hsrc : new_src_uri_tag org repo branch comp ∈ ls)
    (hver : is_version_tag bn = false) (hrel : is_release_branch bn = true)
    (hbnl : '\n' ∉ new_src_uri_branch org repo bn comp)
    (hbgit : containsLit (strL "GIT_TAG") (new_src_uri_branch org repo bn comp) = false)
    (hbpv : containsLit (strL "PV = \"") (new_src_uri_branch org repo bn comp) = false)
    (hd : update_bb_file api org bn repo comp (some (joinLines ls)) = some d') :
    containsLit (strL "GIT_TAG") d' = false ∧
      containsLit (new_src_uri_branch org repo bn comp) d' = true ∧
      activeAutorev d' = true ∧
      lineStartHit (strL "#SRCREV = ") d' = false := by
  have hne : ls ≠ [] := List.ne_nil_of_mem hc.has_git
  have hnl := hc.nl_ok
  have hnbne : new_src_uri_branch org repo bn comp ≠ pvL := by
    intro h
    have h2 := hbpv
    rw [h] at h2
    exact absurd h2 (by decide)
  have hde : d' = collapse (branch_mode_update org repo comp bn (joinLines ls)) := by
    simp [update_bb_file, hver, hrel] at hd
    exact hd.symm
  have hmatch : ∀ l ∈ ls, gitTagLineMatch l = none ∨ gitTagLineMatch l = some [] := by
    intro l hl
    rcases hc.mem_ok l hl with rfl | rfl | rfl | hp
    · exact Or.inr (gitTagLineMatch_gitTagL tag)
    · exact Or.inl (gitTagLineMatch_none_of_no_occ _ hc.src_no_gitq)
    · exact Or.inl (gitTagLineMatch_none_of_no_occ _ (by decide))
    · exact Or.inl (gitTagLineMatch_none_of_no_occ _
        (containsLit_mono_lit (strL "GIT_TAG") (strL "GIT_TAG = \"") l (by decide) hp.1))
  obtain ⟨hr1, hr2, hr3⟩ := removeGitTagLines_clean ls hmatch
  have hnl1 : ∀ l ∈ removeGitTagLines ls, '\n' ∉ l := by
    intro l hl
    rcases hr1 l hl with rfl | ⟨h1, _⟩
    · simp
    · exact hnl l h1
  have hne1 : removeGitTagLines ls ≠ [] := hr3 hne
  have hsrc1 : new_src_uri_tag org repo branch comp ∈ removeGitTagLines ls :=
    hr2 _ hsrc (gitTagLineMatch_none_of_no_occ _ hc.src_no_gitq)
  have hpv1 : pvL ∈ removeGitTagLines ls :=
    hr2 _ hc.has_pv (gitTagLineMatch_none_of_no_occ _ (by decide))
  have hA : remove_git_tag (joinLines ls) = joinLines (removeGitTagLines ls) := by
    unfold remove_git_tag
    rw [docLines_joinLines ls hne hnl]
  have hmem1 : ∀ l ∈ removeGitTagLines ls,
      l = new_src_uri_tag org repo branch comp ∨ l = pvL ∨ l = [] ∨
        (l ∈ ls ∧ PassiveTag l) := by
    intro l hl
    rcases hr1 l hl with rfl | ⟨h1, h2⟩
    · exact Or.inr (Or.inr (Or.inl rfl))
    · rcases hc.mem_ok l h1 with rfl | rfl | rfl | hp
      · rw [gitTagLineMatch_gitTagL tag] at h2
        exact absurd h2 (by simp)
      · exact Or.inl rfl
      · exact Or.inr (Or.inl rfl)
      · exact Or.inr (Or.inr (Or.inr ⟨h1, hp⟩))
  have hperB : ∀ l ∈ removeGitTagLines ls,
      (InertFor (srcUriTm org repo) l ∧ srcSwap org repo branch comp bn l = l) ∨
      (l ≠ [] ∧ (∀ z, srcUriTm org repo (l ++ z) = some z) ∧
        srcSwap org repo branch comp bn l = new_src_uri_branch org repo bn comp) := by
    intro l hl
    rcases hmem1 l hl with rfl | rfl | rfl | ⟨hmem, hp⟩
    · refine Or.inr ⟨new_src_uri_tag_ne_nil org repo branch comp,
        fun z => srcUriTm_canonical_tag org repo branch comp hc.branch_qf hc.comp_qf z, ?_⟩
      unfold srcSwap
      rw [if_pos rfl]
    · refine Or.inl ⟨inertFor_of_no_occ _ _ (srcUriTm_start org repo) (by decide) _
        (by decide) (by decide), ?_⟩
      unfold srcSwap
      rw [if_neg (ne_new_tag_of_no_src_uri org repo branch comp pvL (by decide))]
    · refine Or.inl ⟨inertFor_of_no_occ _ _ (srcUriTm_start org repo) (by decide) _
        (by decide) (by decide), ?_⟩
      unfold srcSwap
      rw [if_neg (ne_new_tag_of_no_src_uri org repo branch comp [] (by decide))]
    · refine Or.inl ⟨inertFor_of_no_occ _ _ (srcUriTm_start org repo) (by decide) _
        (hnl1 l hl) hp.2.1, ?_⟩
      unfold srcSwap
      rw [if_neg (ne_new_tag_of_no_src_uri org repo branch comp l hp.2.1)]
  have hB : sub_src_uri org repo (new_src_uri_branch org repo bn comp)
        (joinLines (removeGitTagLines ls))
      = joinLines ((removeGitTagLines ls).map (srcSwap org repo branch comp bn)) := by
    unfold sub_src_uri
    exact substAll_lines_map (srcUriTm org repo) _ (srcUriTm_shrink org repo) (strL "SRC_URI")
      'S' (strL "RC_URI") rfl (by decide) (srcUriTm_start org repo) _
      (srcSwap org repo branch comp bn) hperB
  have hmem2 : ∀ l ∈ (removeGitTagLines ls).map (srcSwap org repo branch comp bn),
      l = new_src_uri_branch org repo bn comp ∨ l = pvL ∨ l = [] ∨
        (l ∈ ls ∧ PassiveTag l) := by
    intro l hl
    obtain ⟨x, hx, rfl⟩ := List.mem_map.1 hl
    rcases hmem1 x hx with rfl | rfl | rfl | ⟨hmem, hp⟩
    · left
      unfold srcSwap
      rw [if_pos rfl]
    · right; left
      unfold srcSwap
      rw [if_neg (ne_new_tag_of_no_src_uri org repo branch comp pvL (by decide))]
    · right; right; left
      unfold srcSwap
      rw [if_neg (ne_new_tag_of_no_src_uri org repo branch comp [] (by decide))]
    · right; right; right
      unfold srcSwap
      rw [if_neg (ne_new_tag_of_no_src_uri org repo branch comp x hp.2.1)]
      exact ⟨hmem, hp⟩
  have hpv2 : pvL ∈ (removeGitTagLines ls).map (srcSwap org repo branch comp bn) := by
    refine List.mem_map.2 ⟨pvL, hpv1, ?_⟩
    unfold srcSwap
    rw [if_neg (ne_new_tag_of_no_src_uri org repo branch comp pvL (by decide))]
  have hnew2 : new_src_uri_branch org repo bn comp
      ∈ (removeGitTagLines ls).map (srcSwap org repo branch comp bn) := by
    refine List.mem_map.2 ⟨new_src_uri_tag org repo branch comp, hsrc1, ?_⟩
    unfold srcSwap
    rw [if_pos rfl]
  have hperC : ∀ l ∈ (removeGitTagLines ls).map (srcSwap org repo branch comp bn),
      (InertFor (litTm pvL) l ∧ pvSwap l = l) ∨
      (l ≠ [] ∧ (∀ z, litTm pvL (l ++ z) = some z) ∧ pvSwap l = autorevL) := by
    intro l hl
    rcases hmem2 l hl with rfl | rfl | rfl | ⟨hmem, hp⟩
    · have hno : containsLit pvL (new_src_uri_branch org repo bn comp) = false :=
        containsLit_mono_lit (strL "PV = \"") pvL _ (by decide) hbpv
      refine Or.inl ⟨inertFor_of_no_occ _ _ (litTm_start pvL) (by decide) _ hbnl hno, ?_⟩
      unfold pvSwap
      rw [if_neg hnbne]
    · exact Or.inr ⟨by decide, fun z => litTm_self pvL z, by unfold pvSwap; rw [if_pos rfl]⟩
    · refine Or.inl ⟨inertFor_of_no_occ _ _ (litTm_start pvL) (by decide) _
        (by decide) (by decide), ?_⟩
      unfold pvSwap
      rw [if_neg (by decide)]
    · have hlne : l ≠ pvL := by
        intro h
        have h2 := hp.2.2.1
        rw [h] at h2
        exact absurd h2 (by decide)
      have hno : containsLit pvL l = false :=
        containsLit_mono_lit (strL "PV = \"") pvL l (by decide) hp.2.2.1
      refine Or.inl ⟨inertFor_of_no_occ _ _ (litTm_start pvL) (by decide) _
        hp.2.2.2.2 hno, ?_⟩
      unfold pvSwap
      rw [if_neg hlne]
  have hC : replaceAll pvL autorevL
        (joinLines ((removeGitTagLines ls).map (srcSwap org repo branch comp bn)))
      = joinLines (((removeGitTagLines ls).map (srcSwap org repo branch comp bn)).map pvSwap) := by
    unfold replaceAll
    exact substAll_lines_map (litTm pvL) _ (litTm_shrink pvL (by decide)) pvL
      'P' (strL "V = \"${GIT_TAG}+git${SRCPV}\"") rfl (by decide) (litTm_start pvL) _
      pvSwap hperC
  have hmem3 : ∀ l ∈ ((removeGitTagLines ls).map (srcSwap org repo branch comp bn)).map pvSwap,
      l = new_src_uri_branch org repo bn comp ∨ l = autorevL ∨ l = [] ∨
        (l ∈ ls ∧ PassiveTag l) := by
    intro l hl
    obtain ⟨x, hx, rfl⟩ := List.mem_map.1 hl
    rcases hmem2 x hx with rfl | rfl | rfl | ⟨hmem, hp⟩
    · left
      unfold pvSwap
      rw [if_neg hnbne]
    · right; left
      unfold pvSwap
      rw [if_pos rfl]
    · right; right; left
      unfold pvSwap
      rw [if_neg (by decide)]
    · have hlne : x ≠ pvL := by
        intro h
        have h2 := hp.2.2.1
        rw [h] at h2
        exact absurd h2 (by decide)
      right; right; right
      unfold pvSwap
      rw [if_neg hlne]
      exact ⟨hmem, hp⟩
  have hnl3 : ∀ l ∈ ((removeGitTagLines ls).map (srcSwap org repo branch comp bn)).map pvSwap,
      '\n' ∉ l := by
    intro l hl
    rcases hmem3 l hl with rfl | rfl | rfl | ⟨_, hp⟩
    · exact hbnl
    · decide
    · simp
    · exact hp.2.2.2.2
  have hne3 : ((removeGitTagLines ls).map (srcSwap org repo branch comp bn)).map pvSwap ≠ [] := by
    intro h
    rw [List.map_eq_nil, List.map_eq_nil] at h
    exact hne1 h
  have haut3 : autorevL
      ∈ ((removeGitTagLines ls).map (srcSwap org repo branch comp bn)).map pvSwap := by
    refine List.mem_map.2 ⟨pvL, hpv2, ?_⟩
    unfold pvSwap
    rw [if_pos rfl]
  have hnew3 : new_src_uri_branch org repo bn comp
      ∈ ((removeGitTagLines ls).map (srcSwap org repo branch comp bn)).map pvSwap := by
    refine List.mem_map.2 ⟨new_src_uri_branch org repo bn comp, hnew2, ?_⟩
    unfold pvSwap
    rw [if_neg hnbne]
  have hfixnew : unSwap (new_src_uri_branch org repo bn comp)
      = new_src_uri_branch org repo bn comp := by
    unfold unSwap
    rw [comm_srcrev_not_prefix_new_branch org repo bn comp]
    simp
  have hfacts4 : ∀ l ∈ (((removeGitTagLines ls).map (srcSwap org repo branch comp bn)).map
        pvSwap).map unSwap,
      containsLit (strL "GIT_TAG") l = false ∧ '\n' ∉ l ∧
        (strL "#SRCREV = ").isPrefixOf l = false := by
    intro l hl
    obtain ⟨x, hx, rfl⟩ := List.mem_map.1 hl
    rcases hmem3 x hx with rfl | rfl | rfl | ⟨hmem, hp⟩
    · rw [hfixnew]
      exact ⟨hbgit, hbnl, comm_srcrev_not_prefix_new_branch org repo bn comp⟩
    · have hfix : unSwap autorevL = autorevL := by decide
      rw [hfix]
      exact ⟨by decide, by decide, by decide⟩
    · have hfix : unSwap [] = [] := by decide
      rw [hfix]
      exact ⟨by decide, by simp, by decide⟩
    · cases hpre : (strL "#SRCREV = ").isPrefixOf x with
      | true =>
        have hfix : unSwap x = x.drop 1 := by
          unfold unSwap
          rw [hpre]
          simp
        rw [hfix]
        refine ⟨containsLit_drop_of _ _ _ hp.1, ?_, comm_srcrev_not_prefix_drop x hpre⟩
        intro hm
        exact hp.2.2.2.2 (List.mem_of_mem_drop hm)
      | false =>
        have hfix : unSwap x = x := by
          unfold unSwap
          rw [hpre]
          simp
        rw [hfix]
        exact ⟨hp.1, hp.2.2.2.2, hpre⟩
  have hnl4 : ∀ l ∈ (((removeGitTagLines ls).map (srcSwap org repo branch comp bn)).map
      pvSwap).map unSwap, '\n' ∉ l := by
    intro l hl
    exact (hfacts4 l hl).2.1
  have hne4 : (((removeGitTagLines ls).map (srcSwap org repo branch comp bn)).map
      pvSwap).map unSwap ≠ [] := by
    intro h
    rw [List.map_eq_nil, List.map_eq_nil, List.map_eq_nil] at h
    exact hne1 h
  have haut4 : autorevL ∈ (((removeGitTagLines ls).map (srcSwap org repo branch comp bn)).map
      pvSwap).map unSwap :=
    List.mem_map.2 ⟨autorevL, haut3, by decide⟩
  have hnew4 : new_src_uri_branch org repo bn comp
      ∈ (((removeGitTagLines ls).map (srcSwap org repo branch comp bn)).map pvSwap).map unSwap :=
    List.mem_map.2 ⟨new_src_uri_branch org repo bn comp, hnew3, hfixnew⟩
  have hD : uncomment_srcrev
        (joinLines (((removeGitTagLines ls).map (srcSwap org repo branch comp bn)).map pvSwap))
      = joinLines ((((removeGitTagLines ls).map (srcSwap org repo branch comp bn)).map
          pvSwap).map unSwap) := by
    unfold uncomment_srcrev
    rw [mapLines_joinLines _ _ hne3 hnl3]
    rfl
  have hsrcrev : containsLit (strL "SRCREV = ")
      (joinLines ((((removeGitTagLines ls).map (srcSwap org repo branch comp bn)).map
        pvSwap).map unSwap)) = true :=
    containsLit_joinLines_of_mem _ _ _ haut4 (by decide)
  have hmain : branch_mode_update org repo comp bn (joinLines ls)
      = joinLines ((((removeGitTagLines ls).map (srcSwap org repo branch comp bn)).map
          pvSwap).map unSwap) := by
    unfold branch_mode_update
    simp only []
    rw [hA, hB,
      show strL "PV = \"${GIT_TAG}+git${SRCPV}\"" = pvL from rfl,
      show strL "SRCREV = \"${AUTOREV}\"" = autorevL from rfl,
      hC, hD, if_pos hsrcrev]
  have hgit4 : containsLit (strL "GIT_TAG")
      (joinLines ((((removeGitTagLines ls).map (srcSwap org repo branch comp bn)).map
        pvSwap).map unSwap)) = false := by
    cases hq : containsLit (strL "GIT_TAG")
        (joinLines ((((removeGitTagLines ls).map (srcSwap org repo branch comp bn)).map
          pvSwap).map unSwap)) with
    | false => rfl
    | true =>
      obtain ⟨l, hl, hcl⟩ := containsLit_joinLines_split (strL "GIT_TAG") (by decide) (by decide)
        _ hnl4 hq
      rw [(hfacts4 l hl).1] at hcl
      exact absurd hcl (by simp)
  have hgit : containsLit (strL "GIT_TAG") d' = false := by
    rw [hde, hmain, collapse]
    cases hq : containsLit (strL "GIT_TAG")
        (collapseGo 0 (joinLines ((((removeGitTagLines ls).map
          (srcSwap org repo branch comp bn)).map pvSwap).map unSwap))) with
    | false => rfl
    | true =>
      have h2 := infix_of_infix_collapseGo (strL "GIT_TAG") (by decide) (by decide) _ 0
        ((containsLit_occ_iff _ _).1 hq)
      have h3 := (containsLit_occ_iff _ _).2 h2
      rw [hgit4] at h3
      exact absurd h3 (by simp)
  have hnewin : containsLit (new_src_uri_branch org repo bn comp)
      (joinLines ((((removeGitTagLines ls).map (srcSwap org repo branch comp bn)).map
        pvSwap).map unSwap)) = true :=
    containsLit_joinLines_of_mem _ _ _ hnew4
      (containsLit_of_isPrefixOf _ _ (List.isPrefixOf_iff_prefix.2 List.prefix_rfl))
  have hnew : containsLit (new_src_uri_branch org repo bn comp) d' = true := by
    rw [hde, hmain, collapse]
    have h2 := infix_collapseGo_of_infix _ hbnl _ 0 ((containsLit_occ_iff _ _).1 hnewin)
    exact (containsLit_occ_iff _ _).2 h2
  have haut0 : lineStartHit autorevL
      (joinLines ((((removeGitTagLines ls).map (srcSwap org repo branch comp bn)).map
        pvSwap).map unSwap)) = true := by
    rw [lineStartHit_joinLines autorevL (by decide) _ hne4 hnl4, List.any_eq_true]
    exact ⟨autorevL, haut4, by decide⟩
  have haut : activeAutorev d' = true := by
    unfold activeAutorev
    rw [show strL "SRCREV = \"${AUTOREV}\"" = autorevL from rfl, hde, hmain, collapse]
    exact (collapse_keeps_hit autorevL 'S' (strL "RCREV = \"${AUTOREV}\"") rfl (by decide)
      (by decide) _).1 0 haut0
  have hnc0 : lineStartHit (strL "#SRCREV = ")
      (joinLines ((((removeGitTagLines ls).map (srcSwap org repo branch comp bn)).map
        pvSwap).map unSwap)) = false := by
    rw [lineStartHit_joinLines _ (by decide) _ hne4 hnl4, List.any_eq_false]
    intro l hl
    simp [(hfacts4 l hl).2.2]
  have hncf : lineStartHit (strL "#SRCREV = ") d' = false := by
    rw [hde, hmain, collapse]
    exact (collapse_preserves_no_hit (strL "#SRCREV = ") '#' (strL "SRCREV = ") rfl
      (by decide) (by decide) _).1 0 hnc0
  exact ⟨hgit, hnew, haut, hncf⟩

/-- C4 witness: a concrete canonical tag-mode recipe holding a disabled
`#SRCREV = "${AUTOREV}"` line, updated to the branch `releases/1.4.0-main`,
loses its `GIT_TAG`, gains the branch `SRC_URI` line, has an active
`SRCREV = "${AUTOREV}"` line, and holds no commented `#SRCREV` line — the
uncommenting pass re-enabled the disabled field. -/
theorem c4_branch_mode_rewrite_witness :
    containsLit (strL "GIT_TAG")
        ((update_bb_file apiNone orgD (strL "releases/1.4.0-main") repoD compD
          (some (joinLines lsC4))).getD []) = false ∧
      containsLit (new_src_uri_branch orgD repoD (strL "releases/1.4.0-main") compD)
        ((update_bb_file apiNone orgD (strL "releases/1.4.0-main") repoD compD
          (some (joinLines lsC4))).getD []) = true ∧
      activeAutorev ((update_bb_file apiNone orgD (strL "releases/1.4.0-main") repoD compD
          (some (joinLines lsC4))).getD []) = true ∧
      lineStartHit (strL "#SRCREV = ")
        ((update_bb_file apiNone orgD (strL "releases/1.4.0-main") repoD compD
          (some (joinLines lsC4))).getD []) = false :=
  c4_branch_mode_rewrite apiNone orgD repoD (strL "releases/1.2.0-main") compD (strL "v1.2.3")
    (strL "releases/1.4.0-main") lsC4
    ((update_bb_file apiNone orgD (strL "releases/1.4.0-main") repoD compD
      (some (joinLines lsC4))).getD [])
    ⟨by decide, by decide, by decide, by decide, by decide, by decide, by decide, by decide,
      by decide, by decide⟩
    (by decide) (by decide) (by decide) (by decide) (by decide) (by decide)
    (by rfl)

end UpdComp
